import Mathlib

/-!
# Verification of `couchdb_manager.py`

A shallow embedding of the CouchDB manager desktop application
(`src/couchdb_manager.py`).  The application is UI glue over CouchDB's
HTTP/JSON API: every button handler parses or serialises JSON, issues at
most one HTTP request, and refreshes Tk widgets.  We embed:

* the JSON value model used by Python's `json` module, together with
  executable models of `json.loads` and `json.dumps` (with and without
  `indent=2`).  Numbers are modelled as integers: floating-point literals
  (and the non-standard `NaN`/`Infinity` extensions, and lone UTF-16
  surrogates in `\u` escapes) are outside the model, so texts using them
  do not parse here.  Everything else — escape processing, `\uXXXX`
  (including surrogate pairs), strict control-character rejection,
  leading-zero rejection, duplicate-key handling via `dict(pairs)` —
  follows the CPython `json` package.
* each UI handler as a pure function from the widget state (documents
  cache, tree rows, editor text) and the modelled server response to the
  successor state, the list of HTTP requests issued, and the modal
  dialogs shown.

Widget trees stringify inserted values; we render non-string JSON values
with `pyStr`, which models Python `str()` exactly on scalars and
approximates `repr` on containers (strings shown with plain quotes).
-/

/-! ## The JSON value model

A mutual inductive so that every function on values is plain structural
recursion (and hence kernel-reducible on concrete inputs).  Object
members keep insertion order, as CPython dicts do. -/

mutual

inductive Json where
  | null : Json
  | bool (b : Bool) : Json
  | num (n : Int) : Json
  | str (s : String) : Json
  | arr (elems : JsonList) : Json
  | obj (members : JsonMems) : Json
  deriving DecidableEq

inductive JsonList where
  | nil : JsonList
  | cons (head : Json) (tail : JsonList) : JsonList
  deriving DecidableEq

inductive JsonMems where
  | nil : JsonMems
  | cons (key : String) (val : Json) (tail : JsonMems) : JsonMems
  deriving DecidableEq

end

/- `jsize` is a fuel bound sufficient for the fuelled parser to reconstruct
the value: scalars cost one step, strings additionally one step per
character. -/
mutual

def jsize : Json → Nat
  | .null => 1
  | .bool _ => 1
  | .num _ => 1
  | .str s => s.data.length + 2
  | .arr xs => 1 + jsizeL xs
  | .obj ms => 1 + jsizeM ms

def jsizeL : JsonList → Nat
  | .nil => 0
  | .cons x xs => 1 + jsize x + jsizeL xs

def jsizeM : JsonMems → Nat
  | .nil => 0
  | .cons k v ms => k.data.length + 2 + jsize v + jsizeM ms

end

/-- First member bound to `k`, if any (CPython dict lookup). -/
def memFind : JsonMems → String → Option Json
  | .nil, _ => none
  | .cons k v ms, key => if k = key then some v else memFind ms key

/-- `d[k] = v` on an ordered member list: an existing key keeps its
position and receives the new value, a new key is appended — exactly
CPython dict assignment. -/
def memSet : JsonMems → String → Json → JsonMems
  | .nil, key, v => .cons key v .nil
  | .cons k w ms, key, v =>
    if k = key then .cons k v ms else .cons k w (memSet ms key v)

/-- `dict(pairs)`: fold the parsed member list into a dict. -/
def dictMems : JsonMems → JsonMems
  | .nil => .nil
  | .cons k v ms => memSetAll (.cons k v .nil) ms
where
  memSetAll : JsonMems → JsonMems → JsonMems
  | acc, .nil => acc
  | acc, .cons k v ms => memSetAll (memSet acc k v) ms

def Json.isObj : Json → Bool
  | .obj _ => true
  | _ => false

def Json.isStr : Json → Bool
  | .str _ => true
  | _ => false

/-- `j.get(k, d)` for an object `j` (callers establish `isObj` first). -/
def jGet (j : Json) (k : String) (d : Json) : Json :=
  match j with
  | .obj ms => (memFind ms k).getD d
  | _ => d

/-- `k in j` for an object `j`. -/
def jMem (j : Json) (k : String) : Bool :=
  match j with
  | .obj ms => (memFind ms k).isSome
  | _ => false

/-- `j[k] = v` for an object `j` (identity otherwise; callers establish
`isObj` before assigning). -/
def jSet (j : Json) (k : String) (v : Json) : Json :=
  match j with
  | .obj ms => .obj (memSet ms k v)
  | _ => j

/-- Python truthiness of a JSON-loaded value. -/
def pyTruthy : Json → Bool
  | .null => false
  | .bool b => b
  | .num n => n != 0
  | .str s => s ≠ ""
  | .arr .nil => false
  | .arr _ => true
  | .obj .nil => false
  | .obj _ => true

/-! ## Decimal digits

`natDigs` renders a natural number in base 10 (Python `str`/`repr` of a
non-negative int).  It is fuelled so that it reduces by `rfl`; the fuel
`n + 1` always suffices since the recursion divides by 10. -/

def digitChar (d : Nat) : Char := Char.ofNat (48 + d)

def natDigsF : Nat → Nat → List Char
  | 0, _ => []
  | fuel + 1, n =>
    if n < 10 then [digitChar n] else natDigsF fuel (n / 10) ++ [digitChar (n % 10)]

def natDigs (n : Nat) : List Char := natDigsF (n + 1) n

/-- Python `str(n)` for an int: digits, with a leading `-` when negative. -/
def intRepr (n : Int) : List Char :=
  if n < 0 then '-' :: natDigs n.natAbs else natDigs n.toNat

def natStr (n : Nat) : String := ⟨natDigs n⟩

/-! ## Python string helpers -/

/-- The whitespace set of Python `str.strip()` (ASCII part). -/
def isPyWs (c : Char) : Bool :=
  c = ' ' || c = '\t' || c = '\n' || c = '\r' || c = '\x0b' || c = '\x0c'

/-- Python `str.strip()`. -/
def pyStrip (s : String) : String :=
  ⟨((s.data.dropWhile isPyWs).reverse.dropWhile isPyWs).reverse⟩

/-- Python `str.lower()` (modelled over ASCII). -/
def lowerS (s : String) : String := ⟨s.data.map Char.toLower⟩

/-- `needle in haystack` on Python strings: contiguous substring test. -/
def subL (p : List Char) : List Char → Bool
  | [] => p.isEmpty
  | c :: t => p.isPrefixOf (c :: t) || subL p t

def pyIn (needle haystack : String) : Bool := subL needle.data haystack.data

/-- Python `str.startswith`. -/
def pyStartsWith (s p : String) : Bool := p.data.isPrefixOf s.data

/-- Python `s.split(',')`. -/
def splitCommaL : List Char → List Char → List String
  | [], cur => [⟨cur.reverse⟩]
  | c :: r, cur =>
    if c = ',' then ⟨cur.reverse⟩ :: splitCommaL r [] else splitCommaL r (c :: cur)

def splitComma (s : String) : List String := splitCommaL s.data []

/-- Python `sep.join(parts)`. -/
def joinSep (sep : String) : List String → String
  | [] => ""
  | [p] => p
  | p :: ps => p ++ sep ++ joinSep sep ps

/-- Python `s.replace(pat, repl)` (all occurrences, left to right,
non-overlapping); fuelled by the length of `s` so that it reduces. -/
def replaceAllF (pat repl : List Char) : Nat → List Char → List Char
  | _, [] => []
  | 0, l => l
  | fuel + 1, c :: rest =>
    if pat ≠ [] && pat.isPrefixOf (c :: rest) then
      repl ++ replaceAllF pat repl fuel ((c :: rest).drop pat.length)
    else
      c :: replaceAllF pat repl fuel rest

def pyReplace (s pat repl : String) : String :=
  ⟨replaceAllF pat.data repl.data s.data.length s.data⟩

/-! `pyStr j` models Python `str(x)` on the object loaded from JSON value
`j`; `pyRepr` models `repr(x)` as used for elements of containers.  On
scalars this is exact; inside containers, strings are rendered with
single quotes and no escape processing (the model covers quote-free
strings).  Tk widgets stringify the values given to `Treeview.insert`,
and f-strings stringify interpolated values; both use these. -/

mutual

def pyRepr : Json → List Char
  | .null => ['N','o','n','e']
  | .bool true => ['T','r','u','e']
  | .bool false => ['F','a','l','s','e']
  | .num n => intRepr n
  | .str s => '\'' :: s.data ++ ['\'']
  | .arr .nil => ['[', ']']
  | .arr (.cons x xs) => '[' :: pyRepr x ++ pyReprItems xs ++ [']']
  | .obj .nil => ['{', '}']
  | .obj (.cons k v ms) =>
    '{' :: '\'' :: k.data ++ ['\'', ':', ' '] ++ pyRepr v ++ pyReprMems ms ++ ['}']

def pyReprItems : JsonList → List Char
  | .nil => []
  | .cons x xs => ',' :: ' ' :: pyRepr x ++ pyReprItems xs

def pyReprMems : JsonMems → List Char
  | .nil => []
  | .cons k v ms => ',' :: ' ' :: '\'' :: k.data ++ ['\'', ':', ' '] ++ pyRepr v ++ pyReprMems ms

end

def pyStr : Json → String
  | .str s => s
  | j => ⟨pyRepr j⟩

/-! ## `json.dumps`

`encVal v k` is the serialisation of `v` with `indent=2` at nesting
depth `k` (separators `(',', ': ')`, `ensure_ascii=True`, exactly as
`json.dumps(v, indent=2)` produces).  `encValC` is the default compact
form with separators `(', ', ': ')` used by the plain `json.dumps(doc)`
call in `filter_docs`. -/

def hexDigChar (d : Nat) : Char :=
  if d < 10 then Char.ofNat (48 + d) else Char.ofNat (87 + d)

def hex4 (n : Nat) : List Char :=
  [hexDigChar (n / 4096 % 16), hexDigChar (n / 256 % 16),
   hexDigChar (n / 16 % 16), hexDigChar (n % 16)]

/-- `ensure_ascii` escaping of one character, as in
`json.encoder.py_encode_basestring_ascii`. -/
def escChar (c : Char) : List Char :=
  if c = '"' then ['\\', '"']
  else if c = '\\' then ['\\', '\\']
  else if c = '\x08' then ['\\', 'b']
  else if c = '\x0c' then ['\\', 'f']
  else if c = '\n' then ['\\', 'n']
  else if c = '\r' then ['\\', 'r']
  else if c = '\t' then ['\\', 't']
  else if c.toNat < 0x20 || 0x7e < c.toNat then
    if c.toNat ≤ 0xffff then '\\' :: 'u' :: hex4 c.toNat
    else
      '\\' :: 'u' :: hex4 (0xd800 + (c.toNat - 0x10000) / 0x400) ++
      '\\' :: 'u' :: hex4 (0xdc00 + (c.toNat - 0x10000) % 0x400)
  else [c]

def escList : List Char → List Char
  | [] => []
  | c :: cs => escChar c ++ escList cs

/-- A newline followed by the indentation for depth `k`. -/
def nl (k : Nat) : List Char := '\n' :: List.replicate (2 * k) ' '

mutual

def encVal : Json → Nat → List Char
  | .null, _ => "null".data
  | .bool true, _ => "true".data
  | .bool false, _ => "false".data
  | .num n, _ => intRepr n
  | .str s, _ => '"' :: escList s.data ++ ['"']
  | .arr .nil, _ => ['[', ']']
  | .arr (.cons x xs), k =>
    '[' :: nl (k + 1) ++ encVal x (k + 1) ++ encItems xs (k + 1) ++ nl k ++ [']']
  | .obj .nil, _ => ['{', '}']
  | .obj (.cons key v ms), k =>
    '{' :: nl (k + 1) ++ encMem key v (k + 1) ++ encMems ms (k + 1) ++ nl k ++ ['}']

def encMem (key : String) (v : Json) (k : Nat) : List Char :=
  '"' :: escList key.data ++ '"' :: ':' :: ' ' :: encVal v k

def encItems : JsonList → Nat → List Char
  | .nil, _ => []
  | .cons x xs, k => ',' :: nl k ++ encVal x k ++ encItems xs k

def encMems : JsonMems → Nat → List Char
  | .nil, _ => []
  | .cons key v ms, k => ',' :: nl k ++ encMem key v k ++ encMems ms k

end

/-- `json.dumps(v, indent=2)`. -/
def dumps2 (v : Json) : String := ⟨encVal v 0⟩

mutual

def encValC : Json → List Char
  | .null => "null".data
  | .bool true => "true".data
  | .bool false => "false".data
  | .num n => intRepr n
  | .str s => '"' :: escList s.data ++ ['"']
  | .arr .nil => ['[', ']']
  | .arr (.cons x xs) => '[' :: encValC x ++ encItemsC xs ++ [']']
  | .obj .nil => ['{', '}']
  | .obj (.cons key v ms) => '{' :: encMemC key v ++ encMemsC ms ++ ['}']

def encMemC (key : String) (v : Json) : List Char :=
  '"' :: escList key.data ++ '"' :: ':' :: ' ' :: encValC v

def encItemsC : JsonList → List Char
  | .nil => []
  | .cons x xs => ',' :: ' ' :: encValC x ++ encItemsC xs

def encMemsC : JsonMems → List Char
  | .nil => []
  | .cons key v ms => ',' :: ' ' :: encMemC key v ++ encMemsC ms

end

/-- `json.dumps(v)` with default separators. -/
def dumpsC (v : Json) : String := ⟨encValC v⟩

/-! ## `json.loads`

A fuelled recursive-descent parser following the CPython pure-Python
scanner (`json.scanner.py_make_scanner` / `json.decoder`), restricted as
described in the header: numbers must be integers (a fraction or
exponent part makes the parse fail where CPython would produce a float),
and `NaN`/`Infinity`/`-Infinity` and lone surrogate escapes are
rejected.  All functions are structural in their fuel, so they reduce on
concrete inputs; `loads` supplies fuel `length + 1`, which `jsize`
certifies sufficient for every value the serializer can produce. -/

/-- JSON inter-token whitespace (`json.decoder.WHITESPACE_STR`). -/
def isJWs (c : Char) : Bool := c = ' ' || c = '\t' || c = '\n' || c = '\r'

def skipWs (l : List Char) : List Char := l.dropWhile isJWs

def hexDigVal (c : Char) : Option Nat :=
  if '0' ≤ c ∧ c ≤ '9' then some (c.toNat - 48)
  else if 'a' ≤ c ∧ c ≤ 'f' then some (c.toNat - 87)
  else if 'A' ≤ c ∧ c ≤ 'F' then some (c.toNat - 55)
  else none

/-- Read exactly four hex digits (the value of `\uXXXX`). -/
def parseHex4 : List Char → Option Nat
  | a :: b :: c :: d :: _ =>
    match hexDigVal a, hexDigVal b, hexDigVal c, hexDigVal d with
    | some va, some vb, some vc, some vd => some (((va * 16 + vb) * 16 + vc) * 16 + vd)
    | _, _, _, _ => none
  | _ => none

/-- The body of a string literal, after the opening quote
(`json.decoder.py_scanstring`, `strict=True`): literal characters must
be `≥ 0x20`; escapes are the eight named ones plus `\uXXXX`, with
surrogate pairs recombined.  One unit of fuel is spent per produced
character, so fuel `length + 1` always suffices. -/
def parseStrBody : Nat → List Char → Option (List Char × List Char)
  | 0, _ => none
  | _ + 1, [] => none
  | fuel + 1, c :: rest =>
    if c = '"' then some ([], rest)
    else if c = '\\' then
      match rest with
      | [] => none
      | e :: r2 =>
        if e = '"' then (parseStrBody fuel r2).map fun p => ('"' :: p.1, p.2)
        else if e = '\\' then (parseStrBody fuel r2).map fun p => ('\\' :: p.1, p.2)
        else if e = '/' then (parseStrBody fuel r2).map fun p => ('/' :: p.1, p.2)
        else if e = 'b' then (parseStrBody fuel r2).map fun p => ('\x08' :: p.1, p.2)
        else if e = 'f' then (parseStrBody fuel r2).map fun p => ('\x0c' :: p.1, p.2)
        else if e = 'n' then (parseStrBody fuel r2).map fun p => ('\n' :: p.1, p.2)
        else if e = 'r' then (parseStrBody fuel r2).map fun p => ('\r' :: p.1, p.2)
        else if e = 't' then (parseStrBody fuel r2).map fun p => ('\t' :: p.1, p.2)
        else if e = 'u' then
          match parseHex4 r2 with
          | none => none
          | some n =>
            if 0xd800 ≤ n ∧ n ≤ 0xdbff then
              match r2.drop 4 with
              | '\\' :: 'u' :: r4 =>
                match parseHex4 r4 with
                | none => none
                | some m =>
                  if 0xdc00 ≤ m ∧ m ≤ 0xdfff then
                    (parseStrBody fuel (r4.drop 4)).map fun p =>
                      (Char.ofNat (0x10000 + (n - 0xd800) * 0x400 + (m - 0xdc00)) :: p.1, p.2)
                  else none
              | _ => none
            else if 0xdc00 ≤ n ∧ n ≤ 0xdfff then none
            else (parseStrBody fuel (r2.drop 4)).map fun p => (Char.ofNat n :: p.1, p.2)
        else none
    else if c.toNat < 0x20 then none
    else (parseStrBody fuel rest).map fun p => (c :: p.1, p.2)

/-- Accumulate a run of decimal digits. -/
def parseDigits : List Char → Nat → Nat × List Char
  | [], acc => (acc, [])
  | c :: r, acc =>
    if c.isDigit then parseDigits r (acc * 10 + (c.toNat - 48)) else (acc, c :: r)

/-- After the integer part, a fraction or exponent would make the number
a float, which is outside the model. -/
def floatGuard : List Char → Option (List Char)
  | [] => some []
  | c :: r => if c = '.' || c = 'e' || c = 'E' then none else some (c :: r)

/-- The integer part of `NUMBER_RE`: `0`, or a nonzero digit followed by
a maximal digit run (so `012` parses as `0` with `12` left over, exactly
as the regex matches). -/
def parseNumEntry (c : Char) (r : List Char) : Option (Nat × List Char) :=
  if c = '0' then (floatGuard r).map fun r2 => (0, r2)
  else
    match parseDigits r (c.toNat - 48) with
    | (v, r1) => (floatGuard r1).map fun r2 => (v, r2)

/-- Literal keyword continuation: `expectLit lit r v` matches the
remaining characters of `null` / `true` / `false`. -/
def expectLit (lit : List Char) (r : List Char) (v : Json) : Option (Json × List Char) :=
  if lit.isPrefixOf r then some (v, r.drop lit.length) else none

mutual

/-- `scan_once`: a single JSON value at the head of the input (no
leading whitespace, as in CPython's scanner). -/
def parseVal : Nat → List Char → Option (Json × List Char)
  | 0, _ => none
  | _ + 1, [] => none
  | fuel + 1, c :: r =>
    if c = 'n' then expectLit ['u', 'l', 'l'] r .null
    else if c = 't' then expectLit ['r', 'u', 'e'] r (.bool true)
    else if c = 'f' then expectLit ['a', 'l', 's', 'e'] r (.bool false)
    else if c = '"' then
      (parseStrBody fuel r).map fun p => (.str ⟨p.1⟩, p.2)
    else if c = '[' then
      match skipWs r with
      | ']' :: r2 => some (.arr .nil, r2)
      | l2 => (parseItems fuel l2).map fun p => (.arr p.1, p.2)
    else if c = '{' then
      match skipWs r with
      | '}' :: r2 => some (.obj .nil, r2)
      | l2 => (parseMembers fuel l2).map fun p => (.obj (dictMems p.1), p.2)
    else if c = '-' then
      match r with
      | [] => none
      | c2 :: r2 =>
        if c2.isDigit then
          (parseNumEntry c2 r2).map fun p => (.num (-(Int.ofNat p.1)), p.2)
        else none
    else if c.isDigit then
      (parseNumEntry c r).map fun p => (.num (Int.ofNat p.1), p.2)
    else none

/-- The element loop of `JSONArray`, entered when the array is not
empty: value, optional whitespace, then `,` (and more elements) or `]`. -/
def parseItems : Nat → List Char → Option (JsonList × List Char)
  | 0, _ => none
  | fuel + 1, l =>
    match parseVal fuel l with
    | none => none
    | some (v, r) =>
      match skipWs r with
      | ',' :: r2 => (parseItems fuel (skipWs r2)).map fun p => (.cons v p.1, p.2)
      | ']' :: r2 => some (.cons v .nil, r2)
      | _ => none

/-- The member loop of `JSONObject`, entered at the first `"`: key
string, `:`, value, then `,` (and, after whitespace, the next key) or
`}`.  Pairs are collected in order; `parseVal` applies `dictMems`. -/
def parseMembers : Nat → List Char → Option (JsonMems × List Char)
  | 0, _ => none
  | fuel + 1, l =>
    match l with
    | '"' :: r =>
      match parseStrBody fuel r with
      | none => none
      | some (key, r2) =>
        match skipWs r2 with
        | ':' :: r3 =>
          match parseVal fuel (skipWs r3) with
          | none => none
          | some (v, r4) =>
            match skipWs r4 with
            | ',' :: r5 =>
              (parseMembers fuel (skipWs r5)).map fun p => (.cons ⟨key⟩ v p.1, p.2)
            | '}' :: r5 => some (.cons ⟨key⟩ v .nil, r5)
            | _ => none
        | _ => none
    | _ => none

end

/-- `json.loads`: skip leading whitespace, read one value, require only
whitespace after it. -/
def loads (s : String) : Option Json :=
  match parseVal ((skipWs s.data).length + 1) (skipWs s.data) with
  | some (v, r) => if skipWs r = [] then some v else none
  | none => none

/-! ## The HTTP surface

Requests are kept structured (method + the path components the code
interpolates); the claims are about which requests are issued and with
which components, never about the rendered URL text. -/

inductive Request where
  | getAllDbs : Request
  | putDb (name : String) : Request
  | deleteDb (name : String) : Request
  | postIndex (db : String) (payload : Json) : Request
  | getIndexes (db : String) : Request
  | deleteIndex (db : String) (ddocPath : String) (name : String) : Request
  | getAllDocs (db : String) : Request
  | putDoc (db : String) (docId : Option Json) (body : Json) : Request
  | deleteDoc (db : String) (id : String) (rev : String) : Request
  deriving DecidableEq

/-- Outcome of one `requests.*` call whose JSON body the handler reads:
either the call itself raised (network failure), or a response arrived
with a status code and — when `resp.json()` succeeds — a parsed body
(`none` models a body that is not valid JSON, so `resp.json()` raises). -/
inductive HttpOutcome where
  | netFail : HttpOutcome
  | resp (status : Nat) (body : Option Json) : HttpOutcome

/-- `resp.raise_for_status()` raises exactly on a 4xx/5xx status. -/
def raisesForStatus (status : Nat) : Bool := 400 ≤ status

/-! ## Browse window state (`BrowseWindow`)

`docs` is `self.docs` (a dict keyed by document id, insertion-ordered),
`docRows` the `(id, rev)` rows of `self.doc_tree`, `idxRows` the
`(ddoc, name, fields)` rows of `self.idx_tree`, `text` the editor
contents (`self.text`; Tk's `get("1.0", "end")` appends a newline that
the handlers immediately `strip()`, so we model the logical contents),
`currentDoc` is `self.current_doc`. -/

structure BrowseState where
  docs : List (String × Json)
  docRows : List (String × String)
  idxRows : List (String × String × String)
  text : String
  currentDoc : Option String
  status : String

/-- `self.docs[key] = doc` (CPython dict assignment on the cache). -/
def dictSetS (d : List (String × Json)) (key : String) (v : Json) : List (String × Json) :=
  if d.any (fun p => p.1 = key) then
    d.map fun p => if p.1 = key then (key, v) else p
  else d ++ [(key, v)]

/-- Python truthiness of `self.current_doc` (a string or `None`). -/
def falsyCur : Option String → Bool
  | none => true
  | some s => s = ""

def JsonList.toList : JsonList → List Json
  | .nil => []
  | .cons x xs => x :: xs.toList

def JsonMems.pairs : JsonMems → List (String × Json)
  | .nil => []
  | .cons k v ms => (k, v) :: ms.pairs

def strsToJsonList : List String → JsonList
  | [] => .nil
  | s :: ss => .cons (.str s) (strsToJsonList ss)

/-- Did a call followed by `raise_for_status()` succeed? -/
def httpOk : HttpOutcome → Bool
  | .netFail => false
  | .resp code _ => !raisesForStatus code

/-! ### `BrowseWindow.load_docs` -/

/-- One `_all_docs` row is processed without raising when it is a dict,
its `id` (defaulted to `''`) is a string — `startswith` on anything else
raises `AttributeError` — and its `value` (defaulted to `{}`) is a dict. -/
def rowOk (row : Json) : Bool :=
  row.isObj && (jGet row "id" (.str "")).isStr && (jGet row "value" (.obj .nil)).isObj

/-- The row loop of `load_docs`: design documents are skipped, other
rows go into the cache and the tree; a malformed row raises, leaving the
partially rebuilt state to the surrounding `except`. -/
def processRows : List Json → List (String × Json) → List (String × String) →
    List (String × Json) × List (String × String) × Bool
  | [], docs, rows => (docs, rows, false)
  | row :: rest, docs, rows =>
    if row.isObj then
      match jGet row "id" (.str "") with
      | .str id =>
        if pyStartsWith id "_design/" then processRows rest docs rows
        else
          let valJ := jGet row "value" (.obj .nil)
          if valJ.isObj then
            let rev := jGet valJ "rev" (.str "")
            let doc := jGet row "doc" (.obj .nil)
            processRows rest (dictSetS docs id doc) (rows ++ [(id, pyStr rev)])
          else (docs, rows, true)
      | _ => (docs, rows, true)
    else (docs, rows, true)

structure LoadDocsOut where
  st : BrowseState
  requests : List Request
  errors : List String

/-- `BrowseWindow.load_docs`.  Note the code calls no
`raise_for_status` here: any response with a JSON body is processed.
The tree and cache are cleared only after `resp.json()` succeeds, and a
failure while iterating `data.get('rows', [])` leaves the partial
rebuild in place. -/
def load_docs (st : BrowseState) (db : String) (server : HttpOutcome) : LoadDocsOut :=
  let req := [Request.getAllDocs db]
  match server with
  | .netFail => ⟨{ st with status := "error loading" }, req, ["Document Loading Error"]⟩
  | .resp _ body =>
    match body with
    | none => ⟨{ st with status := "error loading" }, req, ["Document Loading Error"]⟩
    | some data =>
      if data.isObj then
        match jGet data "rows" (.arr .nil) with
        | .arr .nil =>
          ⟨{ st with docs := [], docRows := [], status := "Loaded 0 documents" }, req, []⟩
        | .arr rs =>
          match processRows rs.toList [] [] with
          | (docs, rows, crashed) =>
            if crashed then
              ⟨{ st with docs := docs, docRows := rows, status := "error loading" }, req,
               ["Document Loading Error"]⟩
            else
              let status := "Loaded " ++ natStr docs.length ++ " documents"
              ⟨{ st with docs := docs, docRows := rows, status := status }, req, []⟩
        | .str s =>
          -- iterating a string yields 1-character strings, whose `.get` raises
          if s = "" then
            ⟨{ st with docs := [], docRows := [], status := "Loaded 0 documents" }, req, []⟩
          else
            ⟨{ st with docs := [], docRows := [], status := "error loading" }, req,
             ["Document Loading Error"]⟩
        | .obj .nil =>
          ⟨{ st with docs := [], docRows := [], status := "Loaded 0 documents" }, req, []⟩
        | .obj _ =>
          -- iterating a dict yields its keys (strings), whose `.get` raises
          ⟨{ st with docs := [], docRows := [], status := "error loading" }, req,
           ["Document Loading Error"]⟩
        | _ =>
          -- `for row in <non-iterable>` raises after the tree was cleared
          ⟨{ st with docs := [], docRows := [], status := "error loading" }, req,
           ["Document Loading Error"]⟩
      else
        -- the tree clear and the cache reset run before `data.get` raises
        ⟨{ st with docs := [], docRows := [], status := "error loading" }, req,
         ["Document Loading Error"]⟩

/-! ### `BrowseWindow.filter_docs` -/

/-- The row loop of `filter_docs`: a cached doc whose id or serialised
body contains the search text is inserted with its `_rev` column; but
`rev = doc.get('_rev', '')` raises `AttributeError` when the cached doc
is not a dict (e.g. the `None` stored for a `"doc": null` row), and no
`except` surrounds the loop, so it aborts with the rows built so far
already inserted. -/
def filterLoop (stext : String) : List (String × Json) → List (String × String) × Bool
  | [] => ([], false)
  | (id, doc) :: rest =>
    if pyIn stext (lowerS id) || pyIn stext (lowerS (dumpsC doc)) then
      if doc.isObj then
        let out := filterLoop stext rest
        ((id, pyStr (jGet doc "_rev" (.str ""))) :: out.1, out.2)
      else ([], true)
    else filterLoop stext rest

/-- `BrowseWindow.filter_docs`: rebuild the document tree with the rows
of `self.docs` whose id or serialised body contains the search text
(case-insensitively).  Returns the rows inserted and whether the loop
raised mid-way. -/
def filter_docs (docs : List (String × Json)) (search : String) :
    List (String × String) × Bool :=
  filterLoop (lowerS search) docs

/-! ### `BrowseWindow.format_json` -/

structure FormatOut where
  st : BrowseState
  errors : List String

/-- `BrowseWindow.format_json`: re-serialise the editor text with
`indent=2`, or show a `JSON Error` dialog and leave everything alone. -/
def format_json (st : BrowseState) : FormatOut :=
  match loads (pyStrip st.text) with
  | none => ⟨st, ["JSON Error"]⟩
  | some doc => ⟨{ st with text := dumps2 doc, status := "JSON formatted" }, []⟩

/-! ### `BrowseWindow.save_doc` -/

/-- Python `==` between a JSON-loaded value and a Python string. -/
def jeqStr (j : Json) (s : String) : Bool :=
  match j with
  | .str t => t = s
  | _ => false

/-- The `for item in get_children(): if values[0] == new_id: item(...); break`
loop: update the first row with the given id, if any. -/
def updateFirstRow : List (String × String) → String → String → List (String × String)
  | [], _, _ => []
  | r :: rs, id, rev => if r.1 = id then (id, rev) :: rs else r :: updateFirstRow rs id rev

structure SaveOut where
  st : BrowseState
  requests : List Request
  errors : List String
  /-- An exception escaped the handler before the `try` block (a
  non-dict document where `'_id' in doc` / `doc['_id'] = ...` /
  `doc.get` raises): Tk prints the traceback and the callback aborts
  with no dialog, no request and no state change. -/
  crashed : Bool

/-- The part of `save_doc` after the `_id` reconciliation: build the
URL, `PUT`, and on a confirmed `{'ok': ...}` response update cache,
tree, editor and `current_doc`. -/
def savePut (db : String) (st : BrowseState) (doc : Json) (server : HttpOutcome) : SaveOut :=
  if ¬doc.isObj then ⟨st, [], [], true⟩
  else
    let docId := jGet doc "_id" (.str "")
    let req := if pyTruthy docId then Request.putDoc db (some docId) doc
               else Request.putDoc db none doc
    let errOut : SaveOut :=
      ⟨{ st with status := "Failed to save document" }, [req], ["Save Error"], false⟩
    match server with
    | .netFail => errOut
    | .resp code body =>
      if raisesForStatus code then errOut
      else
        match body with
        | none => errOut
        | some result =>
          if ¬result.isObj then errOut
          else if pyTruthy (jGet result "ok" .null) then
            let newId := jGet result "id" .null
            let newRev := jGet result "rev" .null
            let doc2 := jSet (jSet doc "_id" newId) "_rev" newRev
            let key := pyStr newId
            let docs2 := dictSetS st.docs key doc2
            let isNew := falsyCur st.currentDoc ||
              (match st.currentDoc with
               | some cd => !jeqStr newId cd
               | none => true)
            let rows2 := if isNew then st.docRows ++ [(key, pyStr newRev)]
                         else updateFirstRow st.docRows key (pyStr newRev)
            let cur2 := if isNew then some key else st.currentDoc
            ⟨{ st with docs := docs2, docRows := rows2, text := dumps2 doc2,
                       currentDoc := cur2, status := "Saved document '" ++ key ++ "'" },
             [req], [], false⟩
          else
            ⟨{ st with status := "Save failed: no confirmation from server" },
             [req], ["Save Error"], false⟩

/-- `BrowseWindow.save_doc`: parse the editor text (a failure shows
`JSON Error` and returns before any request); when a document is open,
reconcile its `_id` — an explicit different `_id` needs the operator's
confirmation (`askOk`), otherwise the current id is written into the
document — then `PUT`. -/
def save_doc (db : String) (st : BrowseState) (askOk : Bool) (server : HttpOutcome) : SaveOut :=
  match loads (pyStrip st.text) with
  | none => ⟨st, [], ["JSON Error"], false⟩
  | some doc0 =>
    match st.currentDoc with
    | none => savePut db st doc0 server
    | some cd =>
      if cd = "" then savePut db st doc0 server
      else if ¬doc0.isObj then ⟨st, [], [], true⟩
      else if jMem doc0 "_id" && !jeqStr (jGet doc0 "_id" .null) cd then
        if askOk then savePut db st doc0 server else ⟨st, [], [], false⟩
      else savePut db st (jSet doc0 "_id" (.str cd)) server

/-! ### `BrowseWindow.load_indexes` -/

/-- One entry of `fields_list` per field: `{key}:{value}` pairs for a
dict field, `str(f)` otherwise. -/
def fieldEntry (f : Json) : List String :=
  match f with
  | .obj ms => ms.pairs.map fun kv => kv.1 ++ ":" ++ pyStr kv.2
  | _ => [pyStr f]

def fieldEntries : List Json → List String
  | [] => []
  | f :: fs => fieldEntry f ++ fieldEntries fs

/-- The `(ddoc, name, fields)` row rendered for one index object:
`ddoc` is `''` for `None`, otherwise `str(ddoc)` with every `_design/`
removed; the fields string is built only when `def` is a non-empty dict
whose `fields` is a non-empty list. -/
def idxRowOf (idx : Json) : String × String × String :=
  let ddocJ := jGet idx "ddoc" (.str "")
  let nameJ := jGet idx "name" (.str "")
  let ddoc :=
    match ddocJ with
    | .null => ""
    | _ => pyReplace (pyStr ddocJ) "_design/" ""
  let fieldsDef := jGet idx "def" (.obj .nil)
  let fieldsList :=
    if pyTruthy fieldsDef && fieldsDef.isObj then
      match jGet fieldsDef "fields" (.arr .nil) with
      | .arr .nil => []
      | .arr fs => fieldEntries (JsonList.toList fs)
      | _ => []
    else []
  (ddoc, pyStr nameJ, joinSep ", " fieldsList)

/-- The index loop: a non-dict entry raises `AttributeError` at
`idx.get`, leaving the rows inserted so far. -/
def processIdxs : List Json → List (String × String × String) →
    List (String × String × String) × Bool
  | [], acc => (acc, false)
  | idx :: rest, acc =>
    if idx.isObj then processIdxs rest (acc ++ [idxRowOf idx]) else (acc, true)

structure LoadIdxOut where
  st : BrowseState
  requests : List Request
  errors : List String

/-- `BrowseWindow.load_indexes`: `GET {db}/_index` (with
`raise_for_status`), then render `data.get('indexes', [])` into the
index tree.  Network/HTTP errors show `Connection Error`, an unparsable
body shows `JSON Error`, anything raised while shaping the data shows
`Index Loading Error`; `len(indexes)` and `data.get` run before the
tree is cleared, the row loop after. -/
def load_indexes (st : BrowseState) (db : String) (server : HttpOutcome) : LoadIdxOut :=
  let req := [Request.getIndexes db]
  match server with
  | .netFail => ⟨{ st with status := "Network error" }, req, ["Connection Error"]⟩
  | .resp code body =>
    if raisesForStatus code then ⟨{ st with status := "Network error" }, req, ["Connection Error"]⟩
    else
      match body with
      | none => ⟨{ st with status := "Invalid JSON response" }, req, ["JSON Error"]⟩
      | some data =>
        if ¬data.isObj then
          ⟨{ st with status := "Error loading indexes" }, req, ["Index Loading Error"]⟩
        else
          match jGet data "indexes" (.arr .nil) with
          | .arr fs =>
            match processIdxs (JsonList.toList fs) [] with
            | (rows, crashed) =>
              if crashed then
                ⟨{ st with idxRows := rows, status := "Error loading indexes" }, req,
                 ["Index Loading Error"]⟩
              else
                let status := "Loaded " ++ natStr (JsonList.toList fs).length ++ " indexes"
                ⟨{ st with idxRows := rows, status := status }, req, []⟩
          | .str s =>
            if s = "" then ⟨{ st with idxRows := [], status := "Loaded 0 indexes" }, req, []⟩
            else ⟨{ st with idxRows := [], status := "Error loading indexes" }, req,
                  ["Index Loading Error"]⟩
          | .obj .nil => ⟨{ st with idxRows := [], status := "Loaded 0 indexes" }, req, []⟩
          | .obj _ =>
            ⟨{ st with idxRows := [], status := "Error loading indexes" }, req,
             ["Index Loading Error"]⟩
          | _ =>
            ⟨{ st with status := "Error loading indexes" }, req, ["Index Loading Error"]⟩

/-! ### Index creation (`CouchDBManager.create_index`, `BrowseWindow.add_index`) -/

/-- The Mango payload `{"index": {"fields": [...]}, "name": name}` built
from the dialog's comma-separated field list. -/
def indexPayload (name fields : String) : Json :=
  .obj (.cons "index"
          (.obj (.cons "fields"
                   (.arr (strsToJsonList ((splitComma fields).map fun f => pyStrip f)))
                   .nil))
          (.cons "name" (.str name) .nil))

structure AddIdxOut where
  st : BrowseState
  requests : List Request
  errors : List String

/-- `BrowseWindow.add_index`: an empty dialog name or field list (in
particular, a cancelled dialog) returns before any request; otherwise
`POST {db}/_index` and, on success, re-run `load_indexes`. -/
def add_index (st : BrowseState) (db : String) (dlgName dlgFields : String)
    (postServer reloadServer : HttpOutcome) : AddIdxOut :=
  if dlgName = "" || dlgFields = "" then ⟨st, [], []⟩
  else
    let req := Request.postIndex db (indexPayload dlgName dlgFields)
    if httpOk postServer then
      let out := load_indexes st db reloadServer
      ⟨{ out.st with status := "Created index '" ++ dlgName ++ "'" },
       req :: out.requests, out.errors⟩
    else ⟨{ st with status := "Failed to create index" }, [req], ["Error"]⟩

structure MainIdxOut where
  requests : List Request
  errors : List String
  infos : List String

/-- `CouchDBManager.create_index`: needs exactly one selected database;
an empty dialog name or field list returns before any request. -/
def create_index (sel : List String) (dlgName dlgFields : String)
    (server : HttpOutcome) : MainIdxOut :=
  match sel with
  | [db] =>
    if dlgName = "" || dlgFields = "" then ⟨[], [], []⟩
    else
      let req := Request.postIndex db (indexPayload dlgName dlgFields)
      if httpOk server then ⟨[req], [], ["Index Created"]⟩ else ⟨[req], ["Error"], []⟩
  | _ => ⟨[], [], ["Info"]⟩

/-! ### `BrowseWindow.delete_index` -/

structure DelIdxOut where
  st : BrowseState
  requests : List Request
  errors : List String
  infos : List String

/-- `BrowseWindow.delete_index`: take `(ddoc, name)` from the selected
row, prefix the ddoc with `_design/` unless it already starts with it,
`DELETE {db}/_index/{ddoc_path}/json/{name}` and reload on success. -/
def delete_index (st : BrowseState) (db : String) (sel : Option (List String))
    (confirm : Bool) (delServer reloadServer : HttpOutcome) : DelIdxOut :=
  match sel with
  | none => ⟨st, [], [], ["Info"]⟩
  | some vals =>
    if vals.length < 2 then ⟨st, [], ["Error"], []⟩
    else
      let ddoc := vals.getD 0 ""
      let name := vals.getD 1 ""
      if ¬confirm then ⟨st, [], [], []⟩
      else
        let ddocPath := if pyStartsWith ddoc "_design/" then ddoc else "_design/" ++ ddoc
        let req := Request.deleteIndex db ddocPath name
        if httpOk delServer then
          let out := load_indexes st db reloadServer
          ⟨{ out.st with status := "Deleted index '" ++ name ++ "'" },
           req :: out.requests, out.errors, []⟩
        else ⟨{ st with status := "Failed to delete index" }, [req], ["Error"], []⟩

/-! ### `CouchDBManager.add_db` and `_create_index` -/

/-- The default index payload `{"index": {"fields": ["_id"]}, "name": f"{db}_idx"}`. -/
def defaultIndexPayload (db : String) : Json :=
  .obj (.cons "index"
          (.obj (.cons "fields" (.arr (.cons (.str "_id") .nil)) .nil))
          (.cons "name" (.str (db ++ "_idx")) .nil))

structure CreateDefaultIdxOut where
  requests : List Request
  logs : List String

/-- `CouchDBManager._create_index`: POST the default index; an exception
from `requests.post` is caught and printed, and the response status is
never checked, so no failure of any kind is surfaced. -/
def _create_index (db : String) (postRaised : Bool) : CreateDefaultIdxOut :=
  ⟨[Request.postIndex db (defaultIndexPayload db)],
   if postRaised then ["Failed to create default index for '" ++ db ++ "'"] else []⟩

structure AddDbOut where
  tree : List (Nat × String)
  requests : List Request
  errors : List String
  logs : List String
  status : Option String

/-- `CouchDBManager.add_db`: `PUT {url}/{name}`; on success insert the
tree row and fire `_create_index` (whose outcome cannot fail the
operation), on failure show `Error`. -/
def add_db (tree : List (Nat × String)) (newHandle : Nat) (dialogResult : Option String)
    (putServer : HttpOutcome) (idxRaised : Bool) : AddDbOut :=
  match dialogResult with
  | none => ⟨tree, [], [], [], none⟩
  | some name =>
    if name = "" then ⟨tree, [], [], [], none⟩
    else
      let req := Request.putDb name
      if httpOk putServer then
        let ci := _create_index name idxRaised
        ⟨tree ++ [(newHandle, name)], req :: ci.requests, [], ci.logs,
         some ("Created database '" ++ name ++ "' with default index")⟩
      else
        ⟨tree, [req], ["Error"], [],
         some ("Failed to create database '" ++ name ++ "'")⟩

/-! ### `CouchDBManager.delete_selected` / `delete_all`

Both handlers run the identical loop over a list of tree items
`(handle, database name)`: `DELETE {url}/{db}`, and on success remove
that item from the tree and count a success, otherwise print and count a
failure.  `ok i` is the server's verdict on the `i`-th DELETE of the
loop (indexing by position lets the model express a second DELETE of the
same name failing). -/

def deleteLoop (ok : Nat → Bool) : Nat → List (Nat × String) → List (Nat × String) →
    Nat × Nat × List (Nat × String) × List Request
  | _, [], tree => (0, 0, tree, [])
  | i, item :: rest, tree =>
    if ok i then
      let p := deleteLoop ok (i + 1) rest (tree.filter fun it => it.1 ≠ item.1)
      (p.1 + 1, p.2.1, p.2.2.1, Request.deleteDb item.2 :: p.2.2.2)
    else
      let p := deleteLoop ok (i + 1) rest tree
      (p.1, p.2.1 + 1, p.2.2.1, Request.deleteDb item.2 :: p.2.2.2)

structure DelDbOut where
  tree : List (Nat × String)
  succ : Nat
  failed : Nat
  requests : List Request
  warnings : List String
  infos : List String
  status : Option String

/-- `CouchDBManager.delete_selected`. -/
def delete_selected (tree sel : List (Nat × String)) (confirm : Bool)
    (ok : Nat → Bool) : DelDbOut :=
  if sel.isEmpty then ⟨tree, 0, 0, [], [], ["Info"], none⟩
  else if ¬confirm then ⟨tree, 0, 0, [], [], [], none⟩
  else
    match deleteLoop ok 0 sel tree with
    | (s, f, t, reqs) =>
      ⟨t, s, f, reqs, if 0 < f then ["Delete Result"] else [], [],
       some ("Deleted " ++ natStr s ++ " database(s). Failed: " ++ natStr f)⟩

/-- `CouchDBManager.delete_all`: the same loop over every tree item. -/
def delete_all (tree : List (Nat × String)) (confirm : Bool) (ok : Nat → Bool) : DelDbOut :=
  if tree.isEmpty then ⟨tree, 0, 0, [], [], ["Info"], none⟩
  else if ¬confirm then ⟨tree, 0, 0, [], [], [], none⟩
  else
    match deleteLoop ok 0 tree tree with
    | (s, f, t, reqs) =>
      ⟨t, s, f, reqs, if 0 < f then ["Delete Result"] else [], [],
       some ("Deleted " ++ natStr s ++ " database(s). Failed: " ++ natStr f)⟩

/-- The handles of the items whose DELETE succeeded, for stating what
the loop removes. -/
def succHandles (ok : Nat → Bool) : Nat → List (Nat × String) → List Nat
  | _, [] => []
  | i, item :: rest =>
    if ok i then item.1 :: succHandles ok (i + 1) rest else succHandles ok (i + 1) rest

/-! ## Small library lemmas -/

theorem isPrefixOf_self_append (l t : List Char) : l.isPrefixOf (l ++ t) = true := by
  induction l with
  | nil => cases t <;> rfl
  | cons c cs ih => simp [List.isPrefixOf, ih]

theorem pyStartsWith_append (p d : String) : pyStartsWith (p ++ d) p = true := by
  unfold pyStartsWith
  rw [String.data_append]
  exact isPrefixOf_self_append p.data d.data

theorem subL_nil (l : List Char) : subL [] l = true := by
  cases l <;> simp [subL, List.isPrefixOf, List.isEmpty]

theorem pyIn_empty (s : String) : pyIn "" s = true := by
  simpa [pyIn] using subL_nil s.data

/-! ## C4: empty field list rejected before any network call -/

/-- **C4.**  Creating an index with an empty fields input is rejected
before any network call: with `dialog.fields = ""`, both
`CouchDBManager.create_index` and `BrowseWindow.add_index` return
without issuing any HTTP request. -/
theorem empty_fields_no_request (sel : List String) (st : BrowseState) (db : String)
    (dlgName : String) (server postServer reloadServer : HttpOutcome) :
    (create_index sel dlgName "" server).requests = [] ∧
    (add_index st db dlgName "" postServer reloadServer).requests = [] := by
  constructor
  · match sel with
    | [] => rfl
    | [db'] => simp [create_index]
    | _ :: _ :: _ => rfl
  · simp [add_index]

/-! ## C5: rendering of the sample `_index` response -/

/-- **C5.**  For the server response
`{"indexes": [{"ddoc": "_design/foo", "name": "bar", "def": {"fields": [{"x": "asc"}]}}]}`,
`load_indexes` renders exactly one row: design document `foo` (prefix
stripped), name `bar`, fields `x:asc`. -/
theorem load_indexes_sample_row (st : BrowseState) (db : String) :
    (load_indexes st db (.resp 200 (some (.obj (.cons "indexes"
        (.arr (.cons (.obj (.cons "ddoc" (.str "_design/foo")
          (.cons "name" (.str "bar")
          (.cons "def" (.obj (.cons "fields"
            (.arr (.cons (.obj (.cons "x" (.str "asc") .nil)) .nil)) .nil))
          .nil)))) .nil)) .nil))))).st.idxRows = [("foo", "bar", "x:asc")] := by
  rfl

/-! ## C6: `delete_index` always targets a `_design/`-prefixed path -/

/-- **C6.**  For a selected index row `(d, n, ...)` and a confirmed
dialog, `delete_index` issues its DELETE with design-document path `d`
when `d` already starts with `_design/` and `_design/ + d` otherwise —
in either case a `_design/`-prefixed path — and index name `n`. -/
theorem delete_index_design_path (st : BrowseState) (db ddoc name : String)
    (extra : List String) (delServer reloadServer : HttpOutcome) :
    (delete_index st db (some (ddoc :: name :: extra)) true delServer reloadServer).requests.head? =
      some (Request.deleteIndex db
        (if pyStartsWith ddoc "_design/" then ddoc else "_design/" ++ ddoc) name) ∧
    pyStartsWith (if pyStartsWith ddoc "_design/" then ddoc else "_design/" ++ ddoc)
      "_design/" = true := by
  constructor
  · show (delete_index st db (some (ddoc :: name :: extra)) true delServer reloadServer).requests.head? = _
    unfold delete_index
    simp only [List.length_cons]
    have hlen : ¬(extra.length + 1 + 1 < 2) := by omega
    simp only [hlen, if_false, List.getD, List.get?]
    cases h : httpOk delServer <;> simp [h]
  · by_cases h : pyStartsWith ddoc "_design/" = true
    · simp [h]
    · simp only [Bool.not_eq_true] at h
      simp [h, pyStartsWith_append]

/-! ## C9: `add_db` posts the default index, failures swallowed -/

/-- **C9.**  After a successful database creation, `add_db` additionally
POSTs the default index `{"index": {"fields": ["_id"]}, "name": "{db}_idx"}`
to `{db}/_index`, and no outcome of that extra request (`idxRaised`
arbitrary) is surfaced as an error. -/
theorem add_db_posts_default_index (tree : List (Nat × String)) (h : Nat) (name : String)
    (code : Nat) (body : Option Json) (idxRaised : Bool)
    (hname : name ≠ "") (hcode : code < 400) :
    (add_db tree h (some name) (.resp code body) idxRaised).requests =
      [Request.putDb name,
       Request.postIndex name (.obj (.cons "index"
         (.obj (.cons "fields" (.arr (.cons (.str "_id") .nil)) .nil))
         (.cons "name" (.str (name ++ "_idx")) .nil)))] ∧
    (add_db tree h (some name) (.resp code body) idxRaised).errors = [] := by
  have hok : httpOk (.resp code body) = true := by
    simp [httpOk, raisesForStatus]
    omega
  unfold add_db
  simp [hname, hok, _create_index, defaultIndexPayload]

theorem add_db_posts_default_index_witness :
    (add_db [] 0 (some "db") (.resp 201 none) true).requests =
      [Request.putDb "db",
       Request.postIndex "db" (.obj (.cons "index"
         (.obj (.cons "fields" (.arr (.cons (.str "_id") .nil)) .nil))
         (.cons "name" (.str ("db" ++ "_idx")) .nil)))] ∧
    (add_db [] 0 (some "db") (.resp 201 none) true).errors = [] :=
  add_db_posts_default_index [] 0 "db" 201 none true (by decide) (by decide)

/-! ## C8: the database deletion loops -/

theorem deleteLoop_requests (ok : Nat → Bool) :
    ∀ (sel : List (Nat × String)) (i : Nat) (tree : List (Nat × String)),
    (deleteLoop ok i sel tree).2.2.2 = sel.map fun it => Request.deleteDb it.2 := by
  intro sel
  induction sel with
  | nil => intro i tree; rfl
  | cons item rest ih =>
    intro i tree
    by_cases h : ok i <;> simp [deleteLoop, h, ih]

theorem deleteLoop_counts (ok : Nat → Bool) :
    ∀ (sel : List (Nat × String)) (i : Nat) (tree : List (Nat × String)),
    (deleteLoop ok i sel tree).1 + (deleteLoop ok i sel tree).2.1 = sel.length := by
  intro sel
  induction sel with
  | nil => intro i tree; rfl
  | cons item rest ih =>
    intro i tree
    cases h : ok i
    · have h2 := ih (i + 1) tree
      simp [deleteLoop, h]
      omega
    · have h2 := ih (i + 1) (List.filter (fun it => !decide (it.1 = item.1)) tree)
      simp [deleteLoop, h]
      omega

theorem deleteLoop_tree (ok : Nat → Bool) :
    ∀ (sel : List (Nat × String)) (i : Nat) (tree : List (Nat × String)),
    (deleteLoop ok i sel tree).2.2.1 =
      tree.filter fun it => !((succHandles ok i sel).contains it.1) := by
  intro sel
  induction sel with
  | nil =>
    intro i tree
    simp [deleteLoop, succHandles]
  | cons item rest ih =>
    intro i tree
    cases h : ok i
    · have h2 := ih (i + 1) tree
      simp only [deleteLoop, h, Bool.false_eq_true, if_false, succHandles]
      exact h2
    · have h2 := ih (i + 1) (tree.filter fun it => it.1 ≠ item.1)
      simp only [deleteLoop, h, if_true, succHandles]
      rw [h2, List.filter_filter]
      refine List.filter_congr ?_
      intro a _
      simp only [List.contains_cons]
      by_cases heq : a.1 = item.1 <;> simp [heq]

/-- **C8.**  In `delete_selected` and `delete_all` every chosen database
is attempted exactly once, in order and regardless of earlier failures
(the request list is exactly the map over the chosen items); exactly the
items whose DELETE succeeded are removed from the tree; and the reported
success and failure counts sum to the number attempted. -/
theorem delete_loops_properties (tree sel : List (Nat × String)) (ok okAll : Nat → Bool)
    (hsel : sel ≠ []) (htree : tree ≠ []) :
    (delete_selected tree sel true ok).requests = (sel.map fun it => Request.deleteDb it.2) ∧
    (delete_selected tree sel true ok).succ + (delete_selected tree sel true ok).failed =
      sel.length ∧
    (delete_selected tree sel true ok).tree =
      (tree.filter fun it => !((succHandles ok 0 sel).contains it.1)) ∧
    (delete_all tree true okAll).requests = (tree.map fun it => Request.deleteDb it.2) ∧
    (delete_all tree true okAll).succ + (delete_all tree true okAll).failed = tree.length ∧
    (delete_all tree true okAll).tree =
      (tree.filter fun it => !((succHandles okAll 0 tree).contains it.1)) := by
  have hs : sel.isEmpty = false := by simp [List.isEmpty_iff, hsel]
  have ht : tree.isEmpty = false := by simp [List.isEmpty_iff, htree]
  unfold delete_selected delete_all
  simp only [hs, ht, Bool.false_eq_true, if_false, not_true, Bool.not_true]
  refine ⟨?_, ?_, ?_, ?_, ?_, ?_⟩
  · simpa using deleteLoop_requests ok sel 0 tree
  · simpa using deleteLoop_counts ok sel 0 tree
  · simpa using deleteLoop_tree ok sel 0 tree
  · simpa using deleteLoop_requests okAll tree 0 tree
  · simpa using deleteLoop_counts okAll tree 0 tree
  · simpa using deleteLoop_tree okAll tree 0 tree

theorem delete_loops_properties_witness :
    (delete_selected [(0, "a"), (1, "b")] [(1, "b")] true (fun _ => true)).requests =
      [Request.deleteDb "b"] ∧
    (delete_selected [(0, "a"), (1, "b")] [(1, "b")] true (fun _ => true)).succ +
      (delete_selected [(0, "a"), (1, "b")] [(1, "b")] true (fun _ => true)).failed = 1 ∧
    (delete_selected [(0, "a"), (1, "b")] [(1, "b")] true (fun _ => true)).tree = [(0, "a")] ∧
    (delete_all [(0, "a"), (1, "b")] true (fun i => i == 0)).requests =
      [Request.deleteDb "a", Request.deleteDb "b"] ∧
    (delete_all [(0, "a"), (1, "b")] true (fun i => i == 0)).succ +
      (delete_all [(0, "a"), (1, "b")] true (fun i => i == 0)).failed = 2 ∧
    (delete_all [(0, "a"), (1, "b")] true (fun i => i == 0)).tree = [(1, "b")] := by
  have h := delete_loops_properties [(0, "a"), (1, "b")] [(1, "b")]
    (fun _ => true) (fun i => i == 0) (by decide) (by decide)
  simpa using h

/-! ## C2: `load_docs` excludes design documents -/

/-- What one well-formed `_all_docs` row contributes:
`(id, doc, rendered rev)`, or nothing for a `_design/` id. -/
def keptRow (r : Json) : Option (String × Json × String) :=
  match jGet r "id" (.str "") with
  | .str id =>
    if pyStartsWith id "_design/" then none
    else some (id, jGet r "doc" (.obj .nil),
               pyStr (jGet (jGet r "value" (.obj .nil)) "rev" (.str "")))
  | _ => none

/-- The cache built by successive dict assignments. -/
def docsFold (d : List (String × Json)) : List (String × Json × String) → List (String × Json)
  | [] => d
  | t :: ts => docsFold (dictSetS d t.1 t.2.1) ts

theorem processRows_wellformed :
    ∀ (rows : List Json) (d0 : List (String × Json)) (r0 : List (String × String)),
    (∀ r ∈ rows, rowOk r = true) →
    processRows rows d0 r0 =
      (docsFold d0 (rows.filterMap keptRow),
       r0 ++ rows.filterMap (fun r => (keptRow r).map fun t => (t.1, t.2.2)),
       false) := by
  intro rows
  induction rows with
  | nil => intro d0 r0 _; simp [processRows, docsFold]
  | cons row rest ih =>
    intro d0 r0 hwf
    have hrow := hwf row (List.mem_cons_self row rest)
    have hrest : ∀ r ∈ rest, rowOk r = true := fun r hr => hwf r (List.mem_cons_of_mem row hr)
    simp only [rowOk, Bool.and_eq_true] at hrow
    obtain ⟨⟨hobj, hid⟩, hval⟩ := hrow
    cases hcase : jGet row "id" (.str "") with
    | str id =>
      by_cases hdes : pyStartsWith id "_design/" = true
      · rw [show processRows (row :: rest) d0 r0 = processRows rest d0 r0 by
          simp [processRows, hobj, hcase, hdes]]
        rw [ih _ _ hrest]
        simp [keptRow, hcase, hdes]
      · simp only [Bool.not_eq_true] at hdes
        rw [show processRows (row :: rest) d0 r0 =
            processRows rest (dictSetS d0 id (jGet row "doc" (.obj .nil)))
              (r0 ++ [(id, pyStr (jGet (jGet row "value" (.obj .nil)) "rev" (.str "")))]) by
          simp [processRows, hobj, hcase, hdes, hval]]
        rw [ih _ _ hrest]
        simp [keptRow, hcase, hdes, docsFold]
    | null => rw [hcase] at hid; simp [Json.isStr] at hid
    | bool b => rw [hcase] at hid; simp [Json.isStr] at hid
    | num n => rw [hcase] at hid; simp [Json.isStr] at hid
    | arr xs => rw [hcase] at hid; simp [Json.isStr] at hid
    | obj ms => rw [hcase] at hid; simp [Json.isStr] at hid

theorem mem_fst_dictSetS (d : List (String × Json)) (k : String) (v : Json)
    (p : String × Json) (hp : p ∈ dictSetS d k v) : p.1 ∈ d.map Prod.fst ∨ p.1 = k := by
  unfold dictSetS at hp
  by_cases h : d.any (fun q => q.1 = k) = true
  · rw [if_pos h] at hp
    obtain ⟨q, hq, heq⟩ := List.mem_map.mp hp
    by_cases hqk : q.1 = k
    · right
      rw [if_pos hqk] at heq
      rw [← heq]
    · left
      rw [if_neg hqk] at heq
      rw [← heq]
      exact List.mem_map_of_mem Prod.fst hq
  · rw [if_neg h] at hp
    rcases List.mem_append.mp hp with h1 | h1
    · left; exact List.mem_map_of_mem Prod.fst h1
    · right
      have h2 : p = (k, v) := by simpa using h1
      rw [h2]

theorem fst_dictSetS_mem (d : List (String × Json)) (k : String) (v : Json) (k' : String)
    (hk : k' ∈ d.map Prod.fst ∨ k' = k) : k' ∈ (dictSetS d k v).map Prod.fst := by
  unfold dictSetS
  by_cases h : d.any (fun q => q.1 = k) = true
  · rw [if_pos h]
    rcases hk with h1 | rfl
    · obtain ⟨q, hq, hq1⟩ := List.mem_map.mp h1
      by_cases hqk : q.1 = k
      · refine List.mem_map.mpr ⟨(k, v), List.mem_map.mpr ⟨q, hq, by rw [if_pos hqk]⟩, ?_⟩
        show k = k'
        rw [← hq1]
        exact hqk.symm
      · exact List.mem_map.mpr ⟨q, List.mem_map.mpr ⟨q, hq, by rw [if_neg hqk]⟩, hq1⟩
    · obtain ⟨q, hq, hqk⟩ := List.any_eq_true.mp h
      simp only [decide_eq_true_eq] at hqk
      exact List.mem_map.mpr ⟨(k', v), List.mem_map.mpr ⟨q, hq, by rw [if_pos hqk]⟩, rfl⟩
  · rw [if_neg h, List.map_append]
    rcases hk with h1 | rfl
    · exact List.mem_append.mpr (Or.inl h1)
    · exact List.mem_append.mpr (Or.inr (by simp))

theorem fst_dictSetS_sub (d : List (String × Json)) (k : String) (v : Json) (k' : String)
    (h : k' ∈ (dictSetS d k v).map Prod.fst) : k' ∈ d.map Prod.fst ∨ k' = k := by
  obtain ⟨p, hp, hpk⟩ := List.mem_map.mp h
  rcases mem_fst_dictSetS d k v p hp with h1 | h1
  · left; rwa [hpk] at h1
  · right; rw [← hpk]; exact h1

theorem mem_fst_docsFold (ts : List (String × Json × String)) :
    ∀ (d : List (String × Json)) (p : String × Json), p ∈ docsFold d ts →
    p.1 ∈ d.map Prod.fst ∨ p.1 ∈ ts.map Prod.fst := by
  induction ts with
  | nil => intro d p hp; left; exact List.mem_map_of_mem Prod.fst hp
  | cons t rest ih =>
    intro d p hp
    rcases ih _ p hp with h1 | h1
    · rcases fst_dictSetS_sub d t.1 t.2.1 p.1 h1 with h2 | h2
      · left; exact h2
      · right; simp [h2]
    · right; simp [h1]

theorem fst_docsFold_mem (ts : List (String × Json × String)) :
    ∀ (d : List (String × Json)) (k : String),
    k ∈ d.map Prod.fst ∨ k ∈ ts.map Prod.fst → k ∈ (docsFold d ts).map Prod.fst := by
  induction ts with
  | nil =>
    intro d k hk
    rcases hk with h1 | h1
    · simpa [docsFold] using h1
    · simp at h1
  | cons t rest ih =>
    intro d k hk
    show k ∈ (docsFold (dictSetS d t.1 t.2.1) rest).map Prod.fst
    apply ih
    rcases hk with h1 | h1
    · exact Or.inl (fst_dictSetS_mem d t.1 t.2.1 k (Or.inl h1))
    · simp only [List.map_cons, List.mem_cons] at h1
      rcases h1 with h2 | h2
      · exact Or.inl (fst_dictSetS_mem d t.1 t.2.1 k (Or.inr h2))
      · exact Or.inr h2

theorem keptRow_not_design (r : Json) (t : String × Json × String)
    (h : keptRow r = some t) : pyStartsWith t.1 "_design/" = false := by
  cases hcase : jGet r "id" (.str "") with
  | str id =>
    simp only [keptRow, hcase] at h
    by_cases hdes : pyStartsWith id "_design/" = true
    · rw [if_pos hdes] at h; exact absurd h (by simp)
    · rw [if_neg hdes] at h
      injection h with h3
      rw [← h3]
      simpa using hdes
  | null => simp [keptRow, hcase] at h
  | bool b => simp [keptRow, hcase] at h
  | num n => simp [keptRow, hcase] at h
  | arr xs => simp [keptRow, hcase] at h
  | obj ms => simp [keptRow, hcase] at h

/-- **C2.**  For an `_all_docs` response whose rows are well-formed,
`load_docs` excludes every row whose id starts with `_design/` from both
the document tree and the cache, and inserts every other row with its id
and rendered revision (`row['value']['rev']`); those ids all land in the
cache. -/
theorem load_docs_excludes_design (st : BrowseState) (db : String) (status : Nat)
    (data : Json) (rs : JsonList)
    (hobj : data.isObj = true)
    (hrows : jGet data "rows" (.arr .nil) = .arr rs)
    (hwf : ∀ r ∈ rs.toList, rowOk r = true) :
    (load_docs st db (.resp status (some data))).st.docRows =
      rs.toList.filterMap (fun r => (keptRow r).map fun t => (t.1, t.2.2)) ∧
    (∀ p ∈ (load_docs st db (.resp status (some data))).st.docRows,
      pyStartsWith p.1 "_design/" = false) ∧
    (∀ p ∈ (load_docs st db (.resp status (some data))).st.docs,
      pyStartsWith p.1 "_design/" = false) ∧
    (∀ r ∈ rs.toList, ∀ t, keptRow r = some t →
      t.1 ∈ (load_docs st db (.resp status (some data))).st.docs.map Prod.fst) ∧
    (load_docs st db (.resp status (some data))).errors = [] := by
  have hproc := processRows_wellformed rs.toList [] [] hwf
  have hshape :
      (load_docs st db (.resp status (some data))).st.docs =
        docsFold [] (rs.toList.filterMap keptRow) ∧
      (load_docs st db (.resp status (some data))).st.docRows =
        rs.toList.filterMap (fun r => (keptRow r).map fun t => (t.1, t.2.2)) ∧
      (load_docs st db (.resp status (some data))).errors = [] := by
    cases rs with
    | nil =>
      refine ⟨?_, ?_, ?_⟩ <;> simp [load_docs, hobj, hrows, JsonList.toList, docsFold]
    | cons r rest =>
      refine ⟨?_, ?_, ?_⟩ <;> simp [load_docs, hobj, hrows, hproc]
  obtain ⟨hdocs, hrows2, herr⟩ := hshape
  refine ⟨hrows2, ?_, ?_, ?_, herr⟩
  · rw [hrows2]
    intro p hp
    obtain ⟨r, hr, hsome⟩ := List.mem_filterMap.mp hp
    obtain ⟨t, ht, hteq⟩ := Option.map_eq_some'.mp hsome
    have hnd := keptRow_not_design r t ht
    rw [← hteq]
    exact hnd
  · rw [hdocs]
    intro p hp
    rcases mem_fst_docsFold _ _ p hp with h1 | h1
    · simp at h1
    · obtain ⟨q, hq, hq1⟩ := List.mem_map.mp h1
      obtain ⟨r, hr, hsome⟩ := List.mem_filterMap.mp hq
      have hnd := keptRow_not_design r q hsome
      rw [← hq1]
      exact hnd
  · rw [hdocs]
    intro r hr t ht
    apply fst_docsFold_mem
    right
    exact List.mem_map.mpr ⟨t, List.mem_filterMap.mpr ⟨r, hr, ht⟩, rfl⟩

/-! ## C1: a conflicting PUT leaves the local state untouched -/

theorem savePut_conflict (db : String) (st : BrowseState) (doc : Json) (body : Option Json)
    (hreq : (savePut db st doc (.resp 409 body)).requests ≠ []) :
    (savePut db st doc (.resp 409 body)).st.docs = st.docs ∧
    (savePut db st doc (.resp 409 body)).st.docRows = st.docRows ∧
    (savePut db st doc (.resp 409 body)).st.text = st.text ∧
    (savePut db st doc (.resp 409 body)).errors = ["Save Error"] := by
  by_cases hobj : doc.isObj = true
  · have h409 : raisesForStatus 409 = true := rfl
    simp [savePut, hobj, h409]
  · simp [savePut, hobj] at hreq

/-- **C1.**  When the server answers the PUT of `save_doc` with a 409
conflict (stale `_rev`), no local state is mutated: the document cache,
the document tree rows and the editor text are all unchanged, and the
failure surfaces only as the `Save Error` dialog.  (The hypothesis
`requests ≠ []` states that the PUT was actually issued, i.e. the
handler did not already return at the JSON-parse or id-confirmation
step.) -/
theorem save_doc_conflict_no_mutation (db : String) (st : BrowseState) (askOk : Bool)
    (body : Option Json)
    (hreq : (save_doc db st askOk (.resp 409 body)).requests ≠ []) :
    (save_doc db st askOk (.resp 409 body)).st.docs = st.docs ∧
    (save_doc db st askOk (.resp 409 body)).st.docRows = st.docRows ∧
    (save_doc db st askOk (.resp 409 body)).st.text = st.text ∧
    (save_doc db st askOk (.resp 409 body)).errors = ["Save Error"] := by
  cases hload : loads (pyStrip st.text) with
  | none => simp [save_doc, hload] at hreq
  | some doc0 =>
    cases hcd : st.currentDoc with
    | none =>
      simp only [save_doc, hload, hcd] at hreq ⊢
      exact savePut_conflict db st doc0 body hreq
    | some cd =>
      simp only [save_doc, hload, hcd] at hreq ⊢
      by_cases hempty : cd = ""
      · rw [if_pos hempty] at hreq ⊢
        exact savePut_conflict db st doc0 body hreq
      · rw [if_neg hempty] at hreq ⊢
        by_cases hobj : doc0.isObj = true
        · rw [if_neg (by simp [hobj])] at hreq ⊢
          by_cases hid : (jMem doc0 "_id" && !jeqStr (jGet doc0 "_id" .null) cd) = true
          · rw [if_pos hid] at hreq ⊢
            cases askOk with
            | true =>
              simp only [if_true] at hreq ⊢
              exact savePut_conflict db st doc0 body hreq
            | false => simp at hreq
          · rw [if_neg hid] at hreq ⊢
            exact savePut_conflict db st (jSet doc0 "_id" (.str cd)) body hreq
        · rw [if_pos (by simp [hobj])] at hreq ⊢
          simp at hreq

/-- An empty browse window state used by concrete witnesses. -/
def stEmpty : BrowseState := ⟨[], [], [], "", none, ""⟩

/-- A browse state whose editor holds the valid document `{"a": 1}`. -/
def stDocA : BrowseState := ⟨[], [], [], "\x7b\"a\": 1\x7d", none, ""⟩

theorem save_doc_conflict_no_mutation_witness :
    (save_doc "db" stDocA true (.resp 409 none)).requests ≠ [] ∧
    ((save_doc "db" stDocA true (.resp 409 none)).st.docs = stDocA.docs ∧
     (save_doc "db" stDocA true (.resp 409 none)).st.docRows = stDocA.docRows ∧
     (save_doc "db" stDocA true (.resp 409 none)).st.text = stDocA.text ∧
     (save_doc "db" stDocA true (.resp 409 none)).errors = ["Save Error"]) :=
  ⟨by decide, save_doc_conflict_no_mutation "db" stDocA true none (by decide)⟩

/-- The two-row `_all_docs` body used by the C2 witness: one design
document, one ordinary document. -/
def rowsW : JsonList :=
  .cons (.obj (.cons "id" (.str "_design/x")
    (.cons "value" (.obj (.cons "rev" (.str "r0") .nil)) .nil)))
  (.cons (.obj (.cons "id" (.str "a")
    (.cons "value" (.obj (.cons "rev" (.str "1-a") .nil))
    (.cons "doc" (.obj .nil) .nil))))
  .nil)

def dataW : Json := .obj (.cons "rows" (.arr rowsW) .nil)

theorem load_docs_excludes_design_witness :
    (load_docs stEmpty "db" (.resp 200 (some dataW))).st.docRows =
      rowsW.toList.filterMap (fun r => (keptRow r).map fun t => (t.1, t.2.2)) ∧
    (∀ p ∈ (load_docs stEmpty "db" (.resp 200 (some dataW))).st.docRows,
      pyStartsWith p.1 "_design/" = false) ∧
    (∀ p ∈ (load_docs stEmpty "db" (.resp 200 (some dataW))).st.docs,
      pyStartsWith p.1 "_design/" = false) ∧
    (∀ r ∈ rowsW.toList, ∀ t, keptRow r = some t →
      t.1 ∈ (load_docs stEmpty "db" (.resp 200 (some dataW))).st.docs.map Prod.fst) ∧
    (load_docs stEmpty "db" (.resp 200 (some dataW))).errors = [] :=
  load_docs_excludes_design stEmpty "db" 200 dataW rowsW rfl rfl (by decide)

/-! ## C7: malformed editor text is caught before any network call -/

/-- **C7.**  When the editor text does not parse as JSON, `save_doc` and
`format_json` show a `JSON Error` dialog and return: no HTTP request is
issued and neither the state (in particular the document cache and the
editor contents) nor anything else changes. -/
theorem malformed_editor_text_guard (db : String) (st : BrowseState) (askOk : Bool)
    (server : HttpOutcome) (h : loads (pyStrip st.text) = none) :
    (save_doc db st askOk server).st = st ∧
    (save_doc db st askOk server).requests = [] ∧
    (save_doc db st askOk server).errors = ["JSON Error"] ∧
    (format_json st).st = st ∧
    (format_json st).errors = ["JSON Error"] := by
  refine ⟨?_, ?_, ?_, ?_, ?_⟩ <;> simp [save_doc, format_json, h]

/-- A browse state whose editor holds the malformed text `{"a": }`. -/
def stBad : BrowseState := ⟨[], [], [], "\x7b\"a\": \x7d", none, ""⟩

theorem malformed_editor_text_guard_witness :
    (save_doc "db" stBad true (.resp 200 none)).st = stBad ∧
    (save_doc "db" stBad true (.resp 200 none)).requests = [] ∧
    (save_doc "db" stBad true (.resp 200 none)).errors = ["JSON Error"] ∧
    (format_json stBad).st = stBad ∧
    (format_json stBad).errors = ["JSON Error"] :=
  malformed_editor_text_guard "db" stBad true (.resp 200 none) (by decide)

/-! ## Round-trip of `loads` after `dumps`

The claim that pretty-printing is an idempotent round trip needs the
serializer/parser pair to invert: `loads (dumps2 v) = some v` for every
value `v` the parser can produce.  The proof follows the shape of the
encoder: whitespace lemmas, digits, string escapes, then a mutual
induction over the value. -/

/-- `numSafe rest` holds when `rest` cannot extend a just-parsed number:
its head is not a digit, `.`, `e` or `E`. -/
def numSafe : List Char → Bool
  | [] => true
  | c :: _ => !(c.isDigit || c = '.' || c = 'e' || c = 'E')

theorem skipWs_append (pre l : List Char) (h : ∀ c ∈ pre, isJWs c = true) :
    skipWs (pre ++ l) = skipWs l := by
  induction pre with
  | nil => rfl
  | cons c cs ih =>
    have hc := h c (List.mem_cons_self c cs)
    simp only [List.cons_append, skipWs, List.dropWhile, hc]
    exact ih fun d hd => h d (List.mem_cons_of_mem c hd)

theorem nl_ws (k : Nat) : ∀ c ∈ nl k, isJWs c = true := by
  intro c hc
  simp only [nl, List.mem_cons] at hc
  rcases hc with rfl | hc
  · rfl
  · rw [List.eq_of_mem_replicate hc]
    rfl

theorem skipWs_nl (k : Nat) (l : List Char) : skipWs (nl k ++ l) = skipWs l :=
  skipWs_append (nl k) l (nl_ws k)

theorem skipWs_cons_not_ws (c : Char) (r : List Char) (h : isJWs c = false) :
    skipWs (c :: r) = c :: r := by
  simp [skipWs, List.dropWhile, h]

/-! ### Digits -/

theorem digitChar_toNat : ∀ d : Nat, d < 10 → (digitChar d).toNat = 48 + d := by decide

theorem digitChar_isDigit : ∀ d : Nat, d < 10 → (digitChar d).isDigit = true := by decide

theorem digitChar_ne_zero : ∀ d : Nat, d < 10 → 1 ≤ d → digitChar d ≠ '0' := by decide

theorem natDigsF_stable (n : Nat) : ∀ f g : Nat, n < f → n < g →
    natDigsF f n = natDigsF g n := by
  induction n using Nat.strong_induction_on with
  | _ n ih =>
    intro f g hf hg
    match f, g with
    | f' + 1, g' + 1 =>
      by_cases h10 : n < 10
      · simp [natDigsF, h10]
      · have hlt : n / 10 < n := Nat.div_lt_self (by omega) (by omega)
        simp only [natDigsF, h10, if_false]
        rw [ih (n / 10) hlt f' g' (by omega) (by omega)]

theorem natDigs_eq_natDigsF (n f : Nat) (h : n < f) : natDigs n = natDigsF f n :=
  natDigsF_stable n (n + 1) f (Nat.lt_succ_self n) h

theorem natDigsF_all_digits : ∀ (f n : Nat), n < f →
    ∀ c ∈ natDigsF f n, c.isDigit = true := by
  intro f
  induction f with
  | zero => intro n h; omega
  | succ f' ih =>
    intro n _ c hc
    by_cases h10 : n < 10
    · simp only [natDigsF, h10, if_true, List.mem_singleton] at hc
      rw [hc]
      exact digitChar_isDigit n h10
    · have hlt : n / 10 < n := Nat.div_lt_self (by omega) (by omega)
      simp only [natDigsF, h10, if_false, List.mem_append, List.mem_singleton] at hc
      rcases hc with hc | hc
      · exact ih (n / 10) (by omega) c hc
      · rw [hc]
        exact digitChar_isDigit (n % 10) (Nat.mod_lt n (by omega))

theorem natDigs_all_digits (n : Nat) : ∀ c ∈ natDigs n, c.isDigit = true :=
  natDigsF_all_digits (n + 1) n (Nat.lt_succ_self n)

theorem natDigsF_ne_nil : ∀ (f n : Nat), n < f → natDigsF f n ≠ [] := by
  intro f
  cases f with
  | zero => intro n h; omega
  | succ f' =>
    intro n _
    by_cases h10 : n < 10 <;> simp [natDigsF, h10]

theorem natDigsF_head_ne_zero : ∀ (f n : Nat), n < f → 1 ≤ n →
    ∀ c t, natDigsF f n = c :: t → c ≠ '0' := by
  intro f
  induction f with
  | zero => intro n h; omega
  | succ f' ih =>
    intro n hn h1 c t heq
    by_cases h10 : n < 10
    · simp only [natDigsF, h10, if_true] at heq
      have hc : c = digitChar n := by injection heq with h2 h3; exact h2.symm
      rw [hc]
      exact digitChar_ne_zero n h10 h1
    · have hlt : n / 10 < n := Nat.div_lt_self (by omega) (by omega)
      simp only [natDigsF, h10, if_false] at heq
      obtain ⟨c', t', hct⟩ : ∃ c' t', natDigsF f' (n / 10) = c' :: t' := by
        cases hd : natDigsF f' (n / 10) with
        | nil => exact absurd hd (natDigsF_ne_nil f' (n / 10) (by omega))
        | cons a b => exact ⟨a, b, rfl⟩
      rw [hct] at heq
      have hc : c = c' := by injection heq with h2 h3; exact h2.symm
      rw [hc]
      exact ih (n / 10) (by omega) (by omega) c' t' hct

theorem natDigs_ne_nil (n : Nat) : natDigs n ≠ [] :=
  natDigsF_ne_nil (n + 1) n (Nat.lt_succ_self n)

theorem natDigs_head_ne_zero (n : Nat) (h1 : 1 ≤ n) :
    ∀ c t, natDigs n = c :: t → c ≠ '0' :=
  natDigsF_head_ne_zero (n + 1) n (Nat.lt_succ_self n) h1

theorem parseDigits_stop (l : List Char) (acc : Nat) (h : numSafe l = true) :
    parseDigits l acc = (acc, l) := by
  cases l with
  | nil => rfl
  | cons c r =>
    simp only [numSafe, Bool.not_eq_true', Bool.or_eq_false_iff] at h
    simp [parseDigits, h.1.1.1]

theorem parseDigits_natDigsF : ∀ (f n acc : Nat) (rest : List Char), n < f →
    parseDigits (natDigsF f n ++ rest) acc =
      parseDigits rest (acc * 10 ^ (natDigsF f n).length + n) := by
  intro f
  induction f with
  | zero => intro n acc rest h; omega
  | succ f' ih =>
    intro n acc rest _
    by_cases h10 : n < 10
    · have hd := digitChar_isDigit n h10
      have ht := digitChar_toNat n h10
      simp only [natDigsF, h10, if_true, List.singleton_append, List.length_singleton]
      simp [parseDigits, hd, ht, pow_one]
    · have hlt : n / 10 < n := Nat.div_lt_self (by omega) (by omega)
      have hmod : n % 10 < 10 := Nat.mod_lt n (by omega)
      have hd := digitChar_isDigit (n % 10) hmod
      have ht := digitChar_toNat (n % 10) hmod
      simp only [natDigsF, h10, if_false, List.append_assoc, List.singleton_append]
      rw [ih (n / 10) acc (digitChar (n % 10) :: rest) (by omega)]
      simp only [parseDigits, hd, if_true, ht]
      have harith : (acc * 10 ^ (natDigsF f' (n / 10)).length + n / 10) * 10 + (48 + n % 10 - 48) =
          acc * 10 ^ (natDigsF f' (n / 10) ++ [digitChar (n % 10)]).length + n := by
        rw [List.length_append, List.length_singleton, pow_succ]
        have hdm := Nat.div_add_mod n 10
        have : 48 + n % 10 - 48 = n % 10 := by omega
        rw [this]
        calc (acc * 10 ^ (natDigsF f' (n / 10)).length + n / 10) * 10 + n % 10
            = acc * (10 ^ (natDigsF f' (n / 10)).length * 10) + (10 * (n / 10) + n % 10) := by
              ring
          _ = acc * (10 ^ (natDigsF f' (n / 10)).length * 10) + n := by rw [hdm]
      rw [harith]

theorem parseDigits_natDigs (n acc : Nat) (rest : List Char) :
    parseDigits (natDigs n ++ rest) acc =
      parseDigits rest (acc * 10 ^ (natDigs n).length + n) :=
  parseDigits_natDigsF (n + 1) n acc rest (Nat.lt_succ_self n)

theorem floatGuard_safe (l : List Char) (h : numSafe l = true) : floatGuard l = some l := by
  cases l with
  | nil => rfl
  | cons c r =>
    simp only [numSafe, Bool.not_eq_true', Bool.or_eq_false_iff] at h
    simp [floatGuard, h.1.1.2, h.1.2, h.2]

/-- The number entry of the scanner reconstructs `n` from its decimal
digits, leaving a `numSafe` remainder alone. -/
theorem parseNumEntry_natDigs (n : Nat) (rest : List Char) (hs : numSafe rest = true) :
    ∀ c ds, natDigs n = c :: ds →
    parseNumEntry c (ds ++ rest) = some (n, rest) := by
  intro c ds heq
  by_cases h0 : n = 0
  · subst h0
    have : natDigs 0 = ['0'] := rfl
    rw [this] at heq
    have hc : c = '0' := by injection heq with h1 h2; exact h1.symm
    have hds : ds = [] := by injection heq with h1 h2; exact h2.symm
    subst hc; subst hds
    simp [parseNumEntry, floatGuard_safe rest hs]
  · have h1 : 1 ≤ n := by omega
    have hcz : c ≠ '0' := natDigs_head_ne_zero n h1 c ds heq
    have hcd : c.isDigit = true := by
      apply natDigs_all_digits n
      rw [heq]
      exact List.mem_cons_self c ds
    have hstep : parseDigits (ds ++ rest) (c.toNat - 48) =
        parseDigits (natDigs n ++ rest) 0 := by
      rw [heq]
      simp [parseDigits, hcd]
    rw [parseDigits_natDigs, Nat.zero_mul, Nat.zero_add] at hstep
    rw [parseDigits_stop rest n hs] at hstep
    simp [parseNumEntry, hcz, hstep, floatGuard_safe rest hs]

/-! ### Strings -/

theorem hexRound : ∀ d : Nat, d < 16 → hexDigVal (hexDigChar d) = some d := by decide

theorem parseHex4_hex4 (n : Nat) (h : n < 65536) (t : List Char) :
    parseHex4 (hex4 n ++ t) = some n := by
  have h1 := hexRound (n / 4096 % 16) (by omega)
  have h2 := hexRound (n / 256 % 16) (by omega)
  have h3 := hexRound (n / 16 % 16) (by omega)
  have h4 := hexRound (n % 16) (by omega)
  simp only [hex4, List.cons_append, List.nil_append, parseHex4, h1, h2, h3, h4]
  congr 1
  omega

theorem hex4_drop (n : Nat) (t : List Char) : (hex4 n ++ t).drop 4 = t := rfl

theorem char_valid_nat (c : Char) :
    c.toNat < 0xd800 ∨ (0xdfff < c.toNat ∧ c.toNat < 0x110000) := by
  have h := c.valid
  unfold UInt32.isValidChar Nat.isValidChar at h
  exact h

theorem charOfNat_toNat (n : Nat) (h : n.isValidChar) : (Char.ofNat n).toNat = n := by
  simp [Char.ofNat, h]
  rfl

theorem parseStrBody_surrogate (f : Nat) (hi lo : Nat) (t : List Char)
    (hhi65 : hi < 65536) (hlo65 : lo < 65536)
    (hs1 : 0xd800 ≤ hi ∧ hi ≤ 0xdbff) (hs2 : 0xdc00 ≤ lo ∧ lo ≤ 0xdfff) :
    parseStrBody (f + 1) ('\\' :: 'u' :: (hex4 hi ++ ('\\' :: 'u' :: (hex4 lo ++ t)))) =
      (parseStrBody f t).map fun p =>
        (Char.ofNat (0x10000 + (hi - 0xd800) * 0x400 + (lo - 0xdc00)) :: p.1, p.2) := by
  simp [parseStrBody, parseHex4_hex4 hi hhi65, parseHex4_hex4 lo hlo65 t, hs1, hs2, hex4_drop]

/-- Escaping one character and parsing it back yields the character. -/
theorem parseStrBody_escChar (c : Char) (t : List Char) (f : Nat) :
    parseStrBody (f + 1) (escChar c ++ t) =
      (parseStrBody f t).map fun p => (c :: p.1, p.2) := by
  have hval := char_valid_nat c
  unfold escChar
  split_ifs with h1 h2 h3 h4 h5 h6 h7 h8 h9
  · subst h1; rfl
  · subst h2; rfl
  · subst h3; rfl
  · subst h4; rfl
  · subst h5; rfl
  · subst h6; rfl
  · subst h7; rfl
  · -- `\uXXXX`, basic-plane character
    have h65 : c.toNat < 65536 := by omega
    have hns1 : ¬(0xd800 ≤ c.toNat ∧ c.toNat ≤ 0xdbff) := by omega
    have hns2 : ¬(0xdc00 ≤ c.toNat ∧ c.toNat ≤ 0xdfff) := by omega
    have hh := parseHex4_hex4 c.toNat h65 t
    have hofn : Char.ofNat c.toNat = c := Char.ofNat_toNat c
    simp [parseStrBody, hh, hns1, hns2, hex4_drop, hofn]
  · -- `\uXXXX\uXXXX` surrogate pair
    have hge : 0x10000 ≤ c.toNat := by omega
    have hlt : c.toNat < 0x110000 := by omega
    have hhi : 0xd800 + (c.toNat - 0x10000) / 0x400 < 65536 := by omega
    have hlo : 0xdc00 + (c.toNat - 0x10000) % 0x400 < 65536 := by
      have := Nat.mod_lt (c.toNat - 0x10000) (show 0 < 0x400 by omega)
      omega
    have hsur1 : 0xd800 ≤ 0xd800 + (c.toNat - 0x10000) / 0x400 ∧
        0xd800 + (c.toNat - 0x10000) / 0x400 ≤ 0xdbff := by omega
    have hsur2 : 0xdc00 ≤ 0xdc00 + (c.toNat - 0x10000) % 0x400 ∧
        0xdc00 + (c.toNat - 0x10000) % 0x400 ≤ 0xdfff := by
      have := Nat.mod_lt (c.toNat - 0x10000) (show 0 < 0x400 by omega)
      omega
    have harith : 0x10000 + (0xd800 + (c.toNat - 0x10000) / 0x400 - 0xd800) * 0x400 +
        (0xdc00 + (c.toNat - 0x10000) % 0x400 - 0xdc00) = c.toNat := by
      have := Nat.div_add_mod (c.toNat - 0x10000) 0x400
      omega
    have hofn : Char.ofNat c.toNat = c := Char.ofNat_toNat c
    simp only [List.cons_append, List.append_assoc]
    rw [parseStrBody_surrogate f _ _ t hhi hlo hsur1 hsur2, harith, hofn]
  · -- ordinary printable character, emitted verbatim
    have h20 : ¬c.toNat < 0x20 := by
      intro hc
      exact h8 (by simp [hc])
    simp [parseStrBody, h1, h2, h20]

theorem parseStrBody_escList : ∀ (s : List Char) (t : List Char) (f : Nat),
    s.length + 1 ≤ f → parseStrBody f (escList s ++ '"' :: t) = some (s, t) := by
  intro s
  induction s with
  | nil =>
    intro t f hf
    match f, hf with
    | f' + 1, _ => rfl
  | cons c cs ih =>
    intro t f hf
    match f, hf with
    | f' + 1, hf2 =>
      simp only [escList, List.append_assoc]
      rw [parseStrBody_escChar c _ f']
      rw [ih t f' (by simp only [List.length_cons] at hf2; omega)]
      rfl

theorem escChar_length_pos (c : Char) : 1 ≤ (escChar c).length := by
  unfold escChar
  split_ifs <;> simp

theorem escList_length_ge : ∀ s : List Char, s.length ≤ (escList s).length := by
  intro s
  induction s with
  | nil => simp [escList]
  | cons c cs ih =>
    simp only [escList, List.length_append, List.length_cons]
    have := escChar_length_pos c
    omega

/-! ### Well-formed values

`wfJ v` states that every object inside `v` has pairwise-distinct keys.
Every value built by the parser is well-formed (objects go through
`dict(pairs)`), and on well-formed values `dict(pairs)` is the
identity — the two facts that make the object case of the round trip
work. -/

def keysOf : JsonMems → List String
  | .nil => []
  | .cons k _ ms => k :: keysOf ms

mutual

def wfJ : Json → Bool
  | .null => true
  | .bool _ => true
  | .num _ => true
  | .str _ => true
  | .arr xs => wfL xs
  | .obj ms => decide (keysOf ms).Nodup && wfM ms

def wfL : JsonList → Bool
  | .nil => true
  | .cons x xs => wfJ x && wfL xs

def wfM : JsonMems → Bool
  | .nil => true
  | .cons _ v ms => wfJ v && wfM ms

end

def memsAppend : JsonMems → JsonMems → JsonMems
  | .nil, b => b
  | .cons k v ms, b => .cons k v (memsAppend ms b)

theorem memsAppend_assoc : ∀ a b c : JsonMems,
    memsAppend (memsAppend a b) c = memsAppend a (memsAppend b c)
  | .nil, _, _ => rfl
  | .cons k v ms, b, c => by
    simp only [memsAppend]
    rw [memsAppend_assoc ms b c]

theorem keysOf_memsAppend : ∀ a b : JsonMems,
    keysOf (memsAppend a b) = keysOf a ++ keysOf b
  | .nil, _ => rfl
  | .cons k v ms, b => by
    simp only [memsAppend, keysOf, List.cons_append]
    rw [keysOf_memsAppend ms b]

theorem memSet_new : ∀ (acc : JsonMems) (k : String) (v : Json), k ∉ keysOf acc →
    memSet acc k v = memsAppend acc (.cons k v .nil)
  | .nil, _, _, _ => rfl
  | .cons k' w ms, k, v, h => by
    have hne : k' ≠ k := by
      intro he
      exact h (by simp [keysOf, he])
    have hh : k ∉ keysOf ms := fun hm => h (by simp [keysOf, hm])
    simp only [memSet, hne, if_false, memsAppend]
    rw [memSet_new ms k v hh]

theorem memsAppend_nil : ∀ a : JsonMems, memsAppend a .nil = a
  | .nil => rfl
  | .cons k v ms => by
    simp only [memsAppend]
    rw [memsAppend_nil ms]

theorem memSetAll_append : ∀ (ms : JsonMems) (acc : JsonMems), (keysOf ms).Nodup →
    (∀ k ∈ keysOf ms, k ∉ keysOf acc) →
    dictMems.memSetAll acc ms = memsAppend acc ms
  | .nil, acc, _, _ => (memsAppend_nil acc).symm
  | .cons k v ms', acc, hnd, hdis => by
    simp only [keysOf, List.nodup_cons] at hnd
    have hknew : k ∉ keysOf acc := hdis k (by simp [keysOf])
    simp only [dictMems.memSetAll]
    rw [memSet_new acc k v hknew]
    rw [memSetAll_append ms' (memsAppend acc (.cons k v .nil)) hnd.2 ?_]
    · rw [memsAppend_assoc]
      rfl
    · intro k' hk'
      rw [keysOf_memsAppend]
      simp only [keysOf, List.mem_append, List.mem_singleton]
      rintro (hmem | rfl)
      · exact hdis k' (by simp [keysOf, hk']) hmem
      · exact hnd.1 hk'

/-- On a member list with distinct keys, `dict(pairs)` is the identity. -/
theorem dictMems_id (ms : JsonMems) (h : (keysOf ms).Nodup) : dictMems ms = ms := by
  cases ms with
  | nil => rfl
  | cons k v ms' =>
    simp only [keysOf, List.nodup_cons] at h
    simp only [dictMems]
    rw [memSetAll_append ms' (.cons k v .nil) h.2 ?_]
    · rfl
    · intro k' hk'
      simp only [keysOf]
      intro hmem
      simp only [List.mem_cons, List.not_mem_nil, or_false] at hmem
      rw [hmem] at hk'
      exact h.1 hk'

theorem keysOf_memSet_mem : ∀ (acc : JsonMems) (k : String) (v : Json), k ∈ keysOf acc →
    keysOf (memSet acc k v) = keysOf acc
  | .nil, k, _, h => by simp [keysOf] at h
  | .cons k' w ms, k, v, h => by
    by_cases he : k' = k
    · simp [memSet, he, keysOf]
    · have hh : k ∈ keysOf ms := by
        simp only [keysOf, List.mem_cons] at h
        rcases h with h | h
        · exact absurd h.symm he
        · exact h
      simp only [memSet, he, if_false, keysOf]
      rw [keysOf_memSet_mem ms k v hh]

theorem keysOf_memSet_new : ∀ (acc : JsonMems) (k : String) (v : Json), k ∉ keysOf acc →
    keysOf (memSet acc k v) = keysOf acc ++ [k] := by
  intro acc k v h
  rw [memSet_new acc k v h, keysOf_memsAppend]
  rfl

theorem nodup_memSet (acc : JsonMems) (k : String) (v : Json)
    (h : (keysOf acc).Nodup) : (keysOf (memSet acc k v)).Nodup := by
  by_cases hm : k ∈ keysOf acc
  · rw [keysOf_memSet_mem acc k v hm]
    exact h
  · rw [keysOf_memSet_new acc k v hm]
    rw [List.nodup_append]
    refine ⟨h, List.nodup_singleton k, ?_⟩
    intro a ha hak
    simp only [List.mem_singleton] at hak
    rw [hak] at ha
    exact hm ha

theorem wfM_memSet : ∀ (acc : JsonMems) (k : String) (v : Json),
    wfM acc = true → wfJ v = true → wfM (memSet acc k v) = true
  | .nil, k, v, _, hv => by simp [memSet, wfM, hv]
  | .cons k' w ms, k, v, hacc, hv => by
    simp only [wfM, Bool.and_eq_true] at hacc
    by_cases he : k' = k
    · simp [memSet, he, wfM, hv, hacc.2]
    · simp only [memSet, he, if_false, wfM, Bool.and_eq_true]
      exact ⟨hacc.1, wfM_memSet ms k v hacc.2 hv⟩

theorem memSetAll_invariant : ∀ (ms : JsonMems) (acc : JsonMems),
    (keysOf acc).Nodup → wfM acc = true → wfM ms = true →
    (keysOf (dictMems.memSetAll acc ms)).Nodup ∧ wfM (dictMems.memSetAll acc ms) = true
  | .nil, acc, hnd, hwf, _ => ⟨hnd, hwf⟩
  | .cons k v ms', acc, hnd, hwf, hms => by
    simp only [wfM, Bool.and_eq_true] at hms
    exact memSetAll_invariant ms' (memSet acc k v)
      (nodup_memSet acc k v hnd) (wfM_memSet acc k v hwf hms.1) hms.2

/-- `dict(pairs)` always produces distinct keys and preserves
well-formedness of the member values. -/
theorem dictMems_wf (ms : JsonMems) (h : wfM ms = true) :
    (keysOf (dictMems ms)).Nodup ∧ wfM (dictMems ms) = true := by
  cases ms with
  | nil => exact ⟨List.nodup_nil, rfl⟩
  | cons k v ms' =>
    simp only [wfM, Bool.and_eq_true] at h
    simp only [dictMems]
    exact memSetAll_invariant ms' (.cons k v .nil)
      (List.nodup_singleton k) (by simp [wfM, h.1]) h.2

/-! ### Shape facts about the serializer output -/

theorem digit_head_facts (c : Char) (hd : c.isDigit = true) :
    isJWs c = false ∧ isPyWs c = false ∧ c ≠ ']' ∧ c ≠ '}' ∧ c ≠ ',' ∧ c ≠ ':' := by
  have hne : ∀ s : Char, s.isDigit = false → c ≠ s := by
    intro s hs he
    rw [he] at hd
    rw [hd] at hs
    exact absurd hs (by simp)
  refine ⟨?_, ?_, hne ']' (by decide), hne '}' (by decide), hne ',' (by decide),
    hne ':' (by decide)⟩
  · simp [isJWs, hne ' ' (by decide), hne '\t' (by decide), hne '\n' (by decide),
      hne '\r' (by decide)]
  · simp [isPyWs, hne ' ' (by decide), hne '\t' (by decide), hne '\n' (by decide),
      hne '\r' (by decide), hne '\x0b' (by decide), hne '\x0c' (by decide)]

/-- Every serialised value starts with a token character: not
whitespace and none of the delimiters the parser branches on. -/
theorem encVal_head (v : Json) (k : Nat) :
    ∃ c t, encVal v k = c :: t ∧ isJWs c = false ∧ isPyWs c = false ∧
      c ≠ ']' ∧ c ≠ '}' ∧ c ≠ ',' ∧ c ≠ ':' := by
  cases v with
  | null =>
    exact ⟨'n', ['u', 'l', 'l'], by simp [encVal], by decide, by decide, by decide, by decide,
      by decide, by decide⟩
  | bool b =>
    cases b with
    | true =>
      exact ⟨'t', ['r', 'u', 'e'], by simp [encVal], by decide, by decide, by decide, by decide,
        by decide, by decide⟩
    | false =>
      exact ⟨'f', ['a', 'l', 's', 'e'], by simp [encVal], by decide, by decide, by decide,
        by decide, by decide, by decide⟩
  | num n =>
    have henc : encVal (.num n) k = intRepr n := by simp [encVal]
    rw [henc]
    unfold intRepr
    by_cases hneg : n < 0
    · rw [if_pos hneg]
      exact ⟨'-', _, rfl, by decide, by decide, by decide, by decide, by decide, by decide⟩
    · rw [if_neg hneg]
      obtain ⟨c, t, hct⟩ : ∃ c t, natDigs n.toNat = c :: t := by
        cases hd : natDigs n.toNat with
        | nil => exact absurd hd (natDigs_ne_nil n.toNat)
        | cons a b => exact ⟨a, b, rfl⟩
      have hdig : c.isDigit = true := by
        apply natDigs_all_digits n.toNat
        rw [hct]
        exact List.mem_cons_self c t
      obtain ⟨f1, f2, f3, f4, f5, f6⟩ := digit_head_facts c hdig
      exact ⟨c, t, hct, f1, f2, f3, f4, f5, f6⟩
  | str s =>
    exact ⟨'"', escList s.data ++ ['"'], by simp [encVal], by decide, by decide, by decide,
      by decide, by decide, by decide⟩
  | arr xs =>
    cases xs with
    | nil =>
      exact ⟨'[', [']'], by simp [encVal], by decide, by decide, by decide, by decide,
        by decide, by decide⟩
    | cons x t =>
      exact ⟨'[', nl (k + 1) ++ encVal x (k + 1) ++ encItems t (k + 1) ++ nl k ++ [']'],
        by simp [encVal], by decide, by decide, by decide, by decide, by decide, by decide⟩
  | obj ms =>
    cases ms with
    | nil =>
      exact ⟨'{', ['}'], by simp [encVal], by decide, by decide, by decide, by decide,
        by decide, by decide⟩
    | cons key v' t =>
      exact ⟨'{', nl (k + 1) ++ encMem key v' (k + 1) ++ encMems t (k + 1) ++ nl k ++ ['}'],
        by simp [encVal], by decide, by decide, by decide, by decide, by decide, by decide⟩

theorem natDigs_last (n : Nat) : ∃ l d, natDigs n = l ++ [digitChar d] ∧ d < 10 := by
  by_cases h10 : n < 10
  · exact ⟨[], n, by simp [natDigs, natDigsF, h10], h10⟩
  · refine ⟨natDigsF n (n / 10), n % 10, ?_, Nat.mod_lt n (by omega)⟩
    simp [natDigs, natDigsF, h10]

/-- Every serialised value ends with a token character (never
whitespace), so `str.strip()` leaves it unchanged. -/
theorem encVal_last (v : Json) (k : Nat) :
    ∃ l c, encVal v k = l ++ [c] ∧ isPyWs c = false := by
  cases v with
  | null => exact ⟨['n', 'u', 'l'], 'l', by simp [encVal], by decide⟩
  | bool b =>
    cases b with
    | true => exact ⟨['t', 'r', 'u'], 'e', by simp [encVal], by decide⟩
    | false => exact ⟨['f', 'a', 'l', 's'], 'e', by simp [encVal], by decide⟩
  | num n =>
    have henc : encVal (.num n) k = intRepr n := by simp [encVal]
    rw [henc]
    obtain ⟨l, d, hld, hd10⟩ := natDigs_last n.natAbs
    obtain ⟨l2, d2, hld2, hd102⟩ := natDigs_last n.toNat
    have hpw := (digit_head_facts (digitChar d) (digitChar_isDigit d hd10)).2.1
    have hpw2 := (digit_head_facts (digitChar d2) (digitChar_isDigit d2 hd102)).2.1
    unfold intRepr
    by_cases hneg : n < 0
    · rw [if_pos hneg, hld]
      exact ⟨'-' :: l, digitChar d, rfl, hpw⟩
    · rw [if_neg hneg, hld2]
      exact ⟨l2, digitChar d2, rfl, hpw2⟩
  | str s =>
    exact ⟨'"' :: escList s.data, '"', by simp [encVal], by decide⟩
  | arr xs =>
    cases xs with
    | nil => exact ⟨['['], ']', by simp [encVal], by decide⟩
    | cons x t =>
      refine ⟨'[' :: (nl (k + 1) ++ encVal x (k + 1) ++ encItems t (k + 1) ++ nl k), ']',
        ?_, by decide⟩
      simp [encVal]
  | obj ms =>
    cases ms with
    | nil => exact ⟨['{'], '}', by simp [encVal], by decide⟩
    | cons key v' t =>
      refine ⟨'{' :: (nl (k + 1) ++ encMem key v' (k + 1) ++ encMems t (k + 1) ++ nl k), '}',
        ?_, by decide⟩
      simp [encVal]

/-! ### Fuel bounds: the serialised form is at least as long as `jsize` -/

theorem intRepr_length_pos (n : Int) : 1 ≤ (intRepr n).length := by
  unfold intRepr
  by_cases hneg : n < 0
  · simp [hneg]
  · rw [if_neg hneg]
    cases hd : natDigs n.toNat with
    | nil => exact absurd hd (natDigs_ne_nil n.toNat)
    | cons a b => simp [hd]

mutual

theorem jsize_le_encVal : ∀ (v : Json) (k : Nat), jsize v ≤ (encVal v k).length
  | .null, k => by simp [jsize, encVal]
  | .bool b, k => by cases b <;> simp [jsize, encVal]
  | .num n, k => by
    have := intRepr_length_pos n
    have henc : encVal (.num n) k = intRepr n := by simp [encVal]
    simp only [jsize]
    rw [henc]
    omega
  | .str s, k => by
    have := escList_length_ge s.data
    simp only [jsize]
    have henc : (encVal (.str s) k).length = (escList s.data).length + 2 := by
      simp [encVal]
    omega
  | .arr .nil, k => by simp [jsize, jsizeL, encVal]
  | .arr (.cons x xs), k => by
    have h1 := jsize_le_encVal x (k + 1)
    have h2 := jsizeL_le_encItems xs (k + 1)
    have henc : (encVal (.arr (.cons x xs)) k).length =
        1 + (nl (k + 1)).length + (encVal x (k + 1)).length +
        (encItems xs (k + 1)).length + (nl k).length + 1 := by
      simp [encVal]
      omega
    have hnl : 1 ≤ (nl (k + 1)).length := by simp [nl]
    simp only [jsize, jsizeL]
    omega
  | .obj .nil, k => by simp [jsize, jsizeM, encVal]
  | .obj (.cons key v ms), k => by
    have h1 := jsize_le_encVal v (k + 1)
    have h2 := jsizeM_le_encMems ms (k + 1)
    have h3 := escList_length_ge key.data
    have henc : (encVal (.obj (.cons key v ms)) k).length =
        1 + (nl (k + 1)).length + ((escList key.data).length + 4 +
        (encVal v (k + 1)).length) + (encMems ms (k + 1)).length + (nl k).length + 1 := by
      simp [encVal, encMem]
      omega
    have hnl : 1 ≤ (nl (k + 1)).length := by simp [nl]
    simp only [jsize, jsizeM]
    omega

theorem jsizeL_le_encItems : ∀ (xs : JsonList) (k : Nat), jsizeL xs ≤ (encItems xs k).length
  | .nil, k => by simp [jsizeL, encItems]
  | .cons x xs, k => by
    have h1 := jsize_le_encVal x k
    have h2 := jsizeL_le_encItems xs k
    have henc : (encItems (.cons x xs) k).length =
        1 + (nl k).length + (encVal x k).length + (encItems xs k).length := by
      simp [encItems]
      omega
    simp only [jsizeL]
    omega

theorem jsizeM_le_encMems : ∀ (ms : JsonMems) (k : Nat), jsizeM ms ≤ (encMems ms k).length
  | .nil, k => by simp [jsizeM, encMems]
  | .cons key v ms, k => by
    have h1 := jsize_le_encVal v k
    have h2 := jsizeM_le_encMems ms k
    have h3 := escList_length_ge key.data
    have henc : (encMems (.cons key v ms) k).length =
        1 + (nl k).length + ((escList key.data).length + 4 + (encVal v k).length) +
        (encMems ms k).length := by
      simp [encMems, encMem]
      omega
    simp only [jsizeM]
    omega

end

/-! ### Branch lemmas for the scanner -/

theorem digit_ne (c s : Char) (hd : c.isDigit = true) (hs : s.isDigit = false) : c ≠ s := by
  intro he
  rw [he] at hd
  rw [hd] at hs
  exact absurd hs (by simp)

theorem skipWs_cons_ws (c : Char) (l : List Char) (h : isJWs c = true) :
    skipWs (c :: l) = skipWs l := by
  simp [skipWs, List.dropWhile, h]

theorem parseVal_null (f : Nat) (r : List Char) :
    parseVal (f + 1) ('n' :: r) = expectLit ['u', 'l', 'l'] r .null := by
  simp [parseVal]

theorem parseVal_true (f : Nat) (r : List Char) :
    parseVal (f + 1) ('t' :: r) = expectLit ['r', 'u', 'e'] r (.bool true) := by
  simp [parseVal]

theorem parseVal_false (f : Nat) (r : List Char) :
    parseVal (f + 1) ('f' :: r) = expectLit ['a', 'l', 's', 'e'] r (.bool false) := by
  simp [parseVal]

theorem parseVal_quote (f : Nat) (r : List Char) :
    parseVal (f + 1) ('"' :: r) =
      (parseStrBody f r).map fun p => (Json.str ⟨p.1⟩, p.2) := by
  simp [parseVal]

theorem parseVal_lbracket (f : Nat) (r : List Char) :
    parseVal (f + 1) ('[' :: r) =
      (match skipWs r with
       | ']' :: r2 => some (Json.arr .nil, r2)
       | l2 => (parseItems f l2).map fun p => (Json.arr p.1, p.2)) := by
  simp [parseVal]

theorem parseVal_lbrace (f : Nat) (r : List Char) :
    parseVal (f + 1) ('{' :: r) =
      (match skipWs r with
       | '}' :: r2 => some (Json.obj .nil, r2)
       | l2 => (parseMembers f l2).map fun p => (Json.obj (dictMems p.1), p.2)) := by
  simp [parseVal]

theorem parseVal_digit (f : Nat) (c : Char) (r : List Char) (hd : c.isDigit = true) :
    parseVal (f + 1) (c :: r) =
      (parseNumEntry c r).map fun p => (Json.num (Int.ofNat p.1), p.2) := by
  have h1 := digit_ne c 'n' hd (by decide)
  have h2 := digit_ne c 't' hd (by decide)
  have h3 := digit_ne c 'f' hd (by decide)
  have h4 := digit_ne c '"' hd (by decide)
  have h5 := digit_ne c '[' hd (by decide)
  have h6 := digit_ne c '{' hd (by decide)
  have h7 := digit_ne c '-' hd (by decide)
  simp [parseVal, h1, h2, h3, h4, h5, h6, h7, hd]

theorem parseVal_minus (f : Nat) (c2 : Char) (r2 : List Char) (hd : c2.isDigit = true) :
    parseVal (f + 1) ('-' :: c2 :: r2) =
      (parseNumEntry c2 r2).map fun p => (Json.num (-(Int.ofNat p.1)), p.2) := by
  simp [parseVal, hd]

theorem jsize_pos : ∀ v : Json, 1 ≤ jsize v := by
  intro v
  cases v <;> simp [jsize]

theorem numSafe_encItems_tail (xs : JsonList) (k : Nat) (tail : List Char)
    (h : numSafe tail = true) : numSafe (encItems xs k ++ tail) = true := by
  cases xs with
  | nil => simpa [encItems] using h
  | cons y ys => simp [encItems, numSafe]

theorem numSafe_encMems_tail (ms : JsonMems) (k : Nat) (tail : List Char)
    (h : numSafe tail = true) : numSafe (encMems ms k ++ tail) = true := by
  cases ms with
  | nil => simpa [encMems] using h
  | cons key v ms' => simp [encMems, numSafe]

theorem numSafe_nl_cons (k : Nat) (l : List Char) : numSafe (nl k ++ l) = true := by
  simp [nl, numSafe]

theorem expectLit_append (lit r : List Char) (v : Json) :
    expectLit lit (lit ++ r) v = some (v, r) := by
  simp [expectLit, isPrefixOf_self_append, List.drop_left]

theorem parseItems_step (f : Nat) (l : List Char) (v : Json) (r : List Char)
    (h : parseVal f l = some (v, r)) :
    parseItems (f + 1) l =
      (match skipWs r with
       | ',' :: r2 => (parseItems f (skipWs r2)).map fun p => (JsonList.cons v p.1, p.2)
       | ']' :: r2 => some (.cons v .nil, r2)
       | _ => none) := by
  simp [parseItems, h]

theorem parseMembers_step (f : Nat) (r : List Char) (key r2 r3 : List Char) (v : Json)
    (r4 : List Char)
    (hstr : parseStrBody f r = some (key, r2))
    (hcolon : skipWs r2 = ':' :: r3)
    (hval : parseVal f (skipWs r3) = some (v, r4)) :
    parseMembers (f + 1) ('"' :: r) =
      (match skipWs r4 with
       | ',' :: r5 => (parseMembers f (skipWs r5)).map fun p => (JsonMems.cons ⟨key⟩ v p.1, p.2)
       | '}' :: r5 => some (.cons ⟨key⟩ v .nil, r5)
       | _ => none) := by
  simp [parseMembers, hstr, hcolon, hval]

theorem match_arr_ne (f : Nat) (c : Char) (T : List Char) (hc : c ≠ ']') :
    (match c :: T with
     | ']' :: r2 => some (Json.arr .nil, r2)
     | l2 => (parseItems f l2).map fun p => (Json.arr p.1, p.2)) =
      (parseItems f (c :: T)).map fun p => (Json.arr p.1, p.2) := by
  split
  · next heq =>
    injection heq with h1 h2
    exact absurd h1 hc
  · rfl

theorem match_obj_ne (f : Nat) (c : Char) (T : List Char) (hc : c ≠ '}') :
    (match c :: T with
     | '}' :: r2 => some (Json.obj .nil, r2)
     | l2 => (parseMembers f l2).map fun p => (Json.obj (dictMems p.1), p.2)) =
      (parseMembers f (c :: T)).map fun p => (Json.obj (dictMems p.1), p.2) := by
  split
  · next heq =>
    injection heq with h1 h2
    exact absurd h1 hc
  · rfl

mutual

/-- A serialised well-formed value parses back to itself, for any fuel
at least `jsize` and any `numSafe` remainder. -/
theorem rtV : ∀ (v : Json) (k : Nat) (rest : List Char) (fuel : Nat),
    wfJ v = true → jsize v ≤ fuel → numSafe rest = true →
    parseVal fuel (encVal v k ++ rest) = some (v, rest)
  | .null, k, rest, fuel, _, hf, _ => by
    obtain ⟨f, rfl⟩ : ∃ f, fuel = f + 1 :=
      ⟨fuel - 1, by have := jsize_pos Json.null; omega⟩
    have henc : encVal Json.null k ++ rest = 'n' :: (['u', 'l', 'l'] ++ rest) := by
      simp [encVal]
    rw [henc, parseVal_null, expectLit_append]
  | .bool true, k, rest, fuel, _, hf, _ => by
    obtain ⟨f, rfl⟩ : ∃ f, fuel = f + 1 :=
      ⟨fuel - 1, by have := jsize_pos (Json.bool true); omega⟩
    have henc : encVal (Json.bool true) k ++ rest = 't' :: (['r', 'u', 'e'] ++ rest) := by
      simp [encVal]
    rw [henc, parseVal_true, expectLit_append]
  | .bool false, k, rest, fuel, _, hf, _ => by
    obtain ⟨f, rfl⟩ : ∃ f, fuel = f + 1 :=
      ⟨fuel - 1, by have := jsize_pos (Json.bool false); omega⟩
    have henc : encVal (Json.bool false) k ++ rest = 'f' :: (['a', 'l', 's', 'e'] ++ rest) := by
      simp [encVal]
    rw [henc, parseVal_false, expectLit_append]
  | .num n, k, rest, fuel, _, hf, hs => by
    obtain ⟨f, rfl⟩ : ∃ f, fuel = f + 1 :=
      ⟨fuel - 1, by have := jsize_pos (Json.num n); omega⟩
    have henc : encVal (Json.num n) k = intRepr n := by simp [encVal]
    rw [henc]
    unfold intRepr
    by_cases hneg : n < 0
    · rw [if_pos hneg]
      obtain ⟨c, ds, hct⟩ : ∃ c ds, natDigs n.natAbs = c :: ds := by
        cases hd : natDigs n.natAbs with
        | nil => exact absurd hd (natDigs_ne_nil _)
        | cons a b => exact ⟨a, b, rfl⟩
      have hdig : c.isDigit = true := by
        apply natDigs_all_digits n.natAbs
        rw [hct]
        exact List.mem_cons_self c ds
      have hpe := parseNumEntry_natDigs n.natAbs rest hs c ds hct
      rw [hct]
      simp only [List.cons_append]
      rw [parseVal_minus f c (ds ++ rest) hdig, hpe]
      simp only [Option.map_some']
      have hval : -Int.ofNat n.natAbs = n := by
        simp only [Int.ofNat_eq_natCast]
        omega
      rw [hval]
    · rw [if_neg hneg]
      obtain ⟨c, ds, hct⟩ : ∃ c ds, natDigs n.toNat = c :: ds := by
        cases hd : natDigs n.toNat with
        | nil => exact absurd hd (natDigs_ne_nil _)
        | cons a b => exact ⟨a, b, rfl⟩
      have hdig : c.isDigit = true := by
        apply natDigs_all_digits n.toNat
        rw [hct]
        exact List.mem_cons_self c ds
      have hpe := parseNumEntry_natDigs n.toNat rest hs c ds hct
      rw [hct]
      simp only [List.cons_append]
      rw [parseVal_digit f c (ds ++ rest) hdig, hpe]
      simp only [Option.map_some']
      have hval : Int.ofNat n.toNat = n := by
        simp only [Int.ofNat_eq_natCast]
        omega
      rw [hval]
  | .str s, k, rest, fuel, _, hf, _ => by
    obtain ⟨f, rfl⟩ : ∃ f, fuel = f + 1 :=
      ⟨fuel - 1, by have := jsize_pos (Json.str s); omega⟩
    have hlen : s.data.length + 1 ≤ f := by
      simp only [jsize] at hf
      omega
    have henc : encVal (Json.str s) k ++ rest = '"' :: (escList s.data ++ '"' :: rest) := by
      simp [encVal]
    rw [henc, parseVal_quote, parseStrBody_escList s.data rest f hlen]
    rfl
  | .arr .nil, k, rest, fuel, _, hf, _ => by
    obtain ⟨f, rfl⟩ : ∃ f, fuel = f + 1 :=
      ⟨fuel - 1, by have := jsize_pos (Json.arr .nil); omega⟩
    have henc : encVal (Json.arr .nil) k ++ rest = '[' :: (']' :: rest) := by simp [encVal]
    rw [henc, parseVal_lbracket, skipWs_cons_not_ws ']' rest (by decide)]
    rfl
  | .arr (.cons x xs), k, rest, fuel, hw, hf, _ => by
    obtain ⟨f, rfl⟩ : ∃ f, fuel = f + 1 :=
      ⟨fuel - 1, by have := jsize_pos (Json.arr (.cons x xs)); omega⟩
    have hw2 : wfJ x = true ∧ wfL xs = true := by
      simp only [wfJ, wfL, Bool.and_eq_true] at hw
      exact hw
    have hfl : jsizeL (.cons x xs) ≤ f := by
      simp only [jsize] at hf
      omega
    obtain ⟨c, t, hct, hjws, _, hcb, _, _, _⟩ := encVal_head x (k + 1)
    have htail : skipWs (nl k ++ (']' :: rest)) = ']' :: rest := by
      rw [skipWs_nl]
      exact skipWs_cons_not_ws ']' rest (by decide)
    have hitems := rtI x xs (k + 1) (nl k ++ (']' :: rest)) rest f hw2.1 hw2.2 hfl htail
      (numSafe_nl_cons k _)
    have henc : encVal (Json.arr (.cons x xs)) k ++ rest =
        '[' :: (nl (k + 1) ++ (encVal x (k + 1) ++
          (encItems xs (k + 1) ++ (nl k ++ (']' :: rest))))) := by
      simp [encVal]
    rw [henc, parseVal_lbracket]
    have hskip : skipWs (nl (k + 1) ++ (encVal x (k + 1) ++
        (encItems xs (k + 1) ++ (nl k ++ (']' :: rest))))) =
        c :: (t ++ (encItems xs (k + 1) ++ (nl k ++ (']' :: rest)))) := by
      rw [skipWs_nl, hct, List.cons_append]
      exact skipWs_cons_not_ws c _ hjws
    rw [hskip, match_arr_ne f c _ hcb, ← List.cons_append, ← hct, hitems]
    rfl
  | .obj .nil, k, rest, fuel, _, hf, _ => by
    obtain ⟨f, rfl⟩ : ∃ f, fuel = f + 1 :=
      ⟨fuel - 1, by have := jsize_pos (Json.obj .nil); omega⟩
    have henc : encVal (Json.obj .nil) k ++ rest = '{' :: ('}' :: rest) := by simp [encVal]
    rw [henc, parseVal_lbrace, skipWs_cons_not_ws '}' rest (by decide)]
    rfl
  | .obj (.cons key v ms), k, rest, fuel, hw, hf, _ => by
    obtain ⟨f, rfl⟩ : ∃ f, fuel = f + 1 :=
      ⟨fuel - 1, by have := jsize_pos (Json.obj (.cons key v ms)); omega⟩
    have hw2 : (keysOf (.cons key v ms)).Nodup ∧ wfJ v = true ∧ wfM ms = true := by
      simp only [wfJ, wfM, Bool.and_eq_true, decide_eq_true_eq] at hw
      exact ⟨hw.1, hw.2⟩
    have hfm : jsizeM (.cons key v ms) ≤ f := by
      simp only [jsize] at hf
      omega
    have htail : skipWs (nl k ++ ('}' :: rest)) = '}' :: rest := by
      rw [skipWs_nl]
      exact skipWs_cons_not_ws '}' rest (by decide)
    have hmems := rtM key v ms (k + 1) (nl k ++ ('}' :: rest)) rest f hw2.2.1 hw2.2.2 hfm htail
      (numSafe_nl_cons k _)
    have henc : encVal (Json.obj (.cons key v ms)) k ++ rest =
        '{' :: (nl (k + 1) ++ (encMem key v (k + 1) ++
          (encMems ms (k + 1) ++ (nl k ++ ('}' :: rest))))) := by
      simp [encVal]
    rw [henc, parseVal_lbrace]
    have hskip : skipWs (nl (k + 1) ++ (encMem key v (k + 1) ++
        (encMems ms (k + 1) ++ (nl k ++ ('}' :: rest))))) =
        '"' :: (escList key.data ++ '"' :: ':' :: ' ' :: encVal v (k + 1) ++
          (encMems ms (k + 1) ++ (nl k ++ ('}' :: rest)))) := by
      rw [skipWs_nl]
      simp only [encMem, List.cons_append]
      exact skipWs_cons_not_ws '"' _ (by decide)
    rw [hskip, match_obj_ne f '"' _ (by decide)]
    have hback : '"' :: (escList key.data ++ '"' :: ':' :: ' ' :: encVal v (k + 1) ++
        (encMems ms (k + 1) ++ (nl k ++ ('}' :: rest)))) =
        encMem key v (k + 1) ++ (encMems ms (k + 1) ++ (nl k ++ ('}' :: rest))) := by
      simp [encMem]
    rw [hback, hmems]
    simp only [Option.map_some']
    rw [dictMems_id _ hw2.1]
termination_by v _ _ _ _ _ _ => sizeOf v

/-- One serialised array element followed by the rest of the element
list and a closing context parses back to the element list. -/
theorem rtI : ∀ (x : Json) (xs : JsonList) (k : Nat) (tail rest : List Char) (fuel : Nat),
    wfJ x = true → wfL xs = true → jsizeL (.cons x xs) ≤ fuel →
    skipWs tail = ']' :: rest → numSafe tail = true →
    parseItems fuel (encVal x k ++ (encItems xs k ++ tail)) = some (.cons x xs, rest)
  | x, xs, k, tail, rest, fuel, hwx, hwxs, hf, hsk, hns => by
    obtain ⟨f, rfl⟩ : ∃ f, fuel = f + 1 :=
      ⟨fuel - 1, by simp only [jsizeL] at hf; have := jsize_pos x; omega⟩
    have hfx : jsize x ≤ f := by
      simp only [jsizeL] at hf
      omega
    have hval := rtV x k (encItems xs k ++ tail) f hwx hfx (numSafe_encItems_tail xs k tail hns)
    rw [parseItems_step f _ x _ hval]
    cases xs with
    | nil =>
      have hx : encItems JsonList.nil k ++ tail = tail := by simp [encItems]
      rw [hx, hsk]
      rfl
    | cons y ys =>
      have hw2 : wfJ y = true ∧ wfL ys = true := by
        simp only [wfL, Bool.and_eq_true] at hwxs
        exact hwxs
      have hfl2 : jsizeL (.cons y ys) ≤ f := by
        simp only [jsizeL] at hf ⊢
        omega
      obtain ⟨c, t, hct, hjws, _, _, _, _, _⟩ := encVal_head y k
      have henc : encItems (.cons y ys) k ++ tail =
          ',' :: (nl k ++ (encVal y k ++ (encItems ys k ++ tail))) := by
        simp [encItems]
      rw [henc, skipWs_cons_not_ws ',' _ (by decide)]
      have hskip2 : skipWs (nl k ++ (encVal y k ++ (encItems ys k ++ tail))) =
          encVal y k ++ (encItems ys k ++ tail) := by
        rw [skipWs_nl, hct, List.cons_append, skipWs_cons_not_ws c _ hjws,
          ← List.cons_append, ← hct]
      show (parseItems f (skipWs (nl k ++ (encVal y k ++ (encItems ys k ++ tail))))).map
          (fun p => (JsonList.cons x p.1, p.2)) =
        some (JsonList.cons x (JsonList.cons y ys), rest)
      rw [hskip2, rtI y ys k tail rest f hw2.1 hw2.2 hfl2 hsk hns]
      rfl
termination_by x xs _ _ _ _ _ _ _ _ _ => 1 + sizeOf x + sizeOf xs

/-- One serialised object member followed by the rest of the member
list and a closing context parses back to the raw member list. -/
theorem rtM : ∀ (key : String) (v : Json) (ms : JsonMems) (k : Nat) (tail rest : List Char)
    (fuel : Nat),
    wfJ v = true → wfM ms = true → jsizeM (.cons key v ms) ≤ fuel →
    skipWs tail = '}' :: rest → numSafe tail = true →
    parseMembers fuel (encMem key v k ++ (encMems ms k ++ tail)) =
      some (.cons key v ms, rest)
  | key, v, ms, k, tail, rest, fuel, hwv, hwms, hf, hsk, hns => by
    obtain ⟨f, rfl⟩ : ∃ f, fuel = f + 1 :=
      ⟨fuel - 1, by simp only [jsizeM] at hf; have := jsize_pos v; omega⟩
    have hkey : key.data.length + 1 ≤ f := by
      simp only [jsizeM] at hf
      have := jsize_pos v
      omega
    have hfv : jsize v ≤ f := by
      simp only [jsizeM] at hf
      omega
    have hval := rtV v k (encMems ms k ++ tail) f hwv hfv (numSafe_encMems_tail ms k tail hns)
    obtain ⟨c, t, hct, hjws, _, _, _, _, _⟩ := encVal_head v k
    have hskip2 : skipWs (' ' :: (encVal v k ++ (encMems ms k ++ tail))) =
        encVal v k ++ (encMems ms k ++ tail) := by
      rw [skipWs_cons_ws ' ' _ (by decide), hct, List.cons_append,
        skipWs_cons_not_ws c _ hjws, ← List.cons_append, ← hct]
    have hval2 : parseVal f (skipWs (' ' :: (encVal v k ++ (encMems ms k ++ tail)))) =
        some (v, encMems ms k ++ tail) := by
      rw [hskip2]
      exact hval
    have henc : encMem key v k ++ (encMems ms k ++ tail) =
        '"' :: (escList key.data ++ '"' ::
          (':' :: ' ' :: (encVal v k ++ (encMems ms k ++ tail)))) := by
      simp [encMem]
    rw [henc]
    have hstr := parseStrBody_escList key.data
      (':' :: ' ' :: (encVal v k ++ (encMems ms k ++ tail))) f hkey
    rw [parseMembers_step f _ key.data _ (' ' :: (encVal v k ++ (encMems ms k ++ tail)))
      v (encMems ms k ++ tail) hstr
      (skipWs_cons_not_ws ':' _ (by decide)) hval2]
    cases ms with
    | nil =>
      have hx : encMems JsonMems.nil k ++ tail = tail := by simp [encMems]
      rw [hx, hsk]
      rfl
    | cons key2 v2 ms2 =>
      have hw2 : wfJ v2 = true ∧ wfM ms2 = true := by
        simp only [wfM, Bool.and_eq_true] at hwms
        exact hwms
      have hfm2 : jsizeM (.cons key2 v2 ms2) ≤ f := by
        simp only [jsizeM] at hf ⊢
        omega
      have henc2 : encMems (.cons key2 v2 ms2) k ++ tail =
          ',' :: (nl k ++ (encMem key2 v2 k ++ (encMems ms2 k ++ tail))) := by
        simp [encMems]
      rw [henc2, skipWs_cons_not_ws ',' _ (by decide)]
      have hskip3 : skipWs (nl k ++ (encMem key2 v2 k ++ (encMems ms2 k ++ tail))) =
          encMem key2 v2 k ++ (encMems ms2 k ++ tail) := by
        rw [skipWs_nl]
        simp only [encMem, List.cons_append]
        exact skipWs_cons_not_ws '"' _ (by decide)
      show (parseMembers f (skipWs (nl k ++ (encMem key2 v2 k ++
          (encMems ms2 k ++ tail))))).map
          (fun p => (JsonMems.cons ⟨key.data⟩ v p.1, p.2)) =
        some (JsonMems.cons key v (JsonMems.cons key2 v2 ms2), rest)
      rw [hskip3, rtM key2 v2 ms2 k tail rest f hw2.1 hw2.2 hfm2 hsk hns]
      rfl
termination_by key v ms _ _ _ _ _ _ _ _ _ => 1 + sizeOf v + sizeOf ms

end

theorem expectLit_some (lit r : List Char) (v0 v : Json) (rr : List Char)
    (h : expectLit lit r v0 = some (v, rr)) : v = v0 := by
  unfold expectLit at h
  split at h
  · have h2 := Option.some.inj h
    exact (congrArg Prod.fst h2).symm
  · exact absurd h (by simp)

/-- Everything the parser produces is well-formed: object members go
through `dict(pairs)`, which deduplicates keys. -/
theorem parse_wf : ∀ fuel : Nat,
    (∀ l v r, parseVal fuel l = some (v, r) → wfJ v = true) ∧
    (∀ l xs r, parseItems fuel l = some (xs, r) → wfL xs = true) ∧
    (∀ l ms r, parseMembers fuel l = some (ms, r) → wfM ms = true) := by
  intro fuel
  induction fuel with
  | zero =>
    refine ⟨?_, ?_, ?_⟩ <;> intro l a r h <;>
      simp [parseVal, parseItems, parseMembers] at h
  | succ f ih =>
    obtain ⟨ihV, ihI, ihM⟩ := ih
    refine ⟨?_, ?_, ?_⟩
    · intro l v r h
      match l with
      | [] => simp [parseVal] at h
      | c :: t =>
        simp only [parseVal] at h
        split_ifs at h with h1 h2 h3 h4 h5 h6 h7 h8
        · rw [expectLit_some _ _ _ _ _ h]
          simp [wfJ]
        · rw [expectLit_some _ _ _ _ _ h]
          simp [wfJ]
        · rw [expectLit_some _ _ _ _ _ h]
          simp [wfJ]
        · obtain ⟨⟨cs, rr⟩, hps, heq⟩ := Option.map_eq_some'.mp h
          have hv : v = .str ⟨cs⟩ := (congrArg Prod.fst heq).symm
          rw [hv]
          simp [wfJ]
        · split at h
          · have hv : v = .arr .nil := (congrArg Prod.fst (Option.some.inj h)).symm
            rw [hv]
            simp [wfJ, wfL]
          · obtain ⟨⟨xs, rr⟩, hpi, heq⟩ := Option.map_eq_some'.mp h
            have hv : v = .arr xs := (congrArg Prod.fst heq).symm
            rw [hv]
            have := ihI _ xs rr hpi
            simpa [wfJ] using this
        · split at h
          · have hv : v = .obj .nil := (congrArg Prod.fst (Option.some.inj h)).symm
            rw [hv]
            simp [wfJ, wfM, keysOf]
          · obtain ⟨⟨ms, rr⟩, hpm, heq⟩ := Option.map_eq_some'.mp h
            have hv : v = .obj (dictMems ms) := (congrArg Prod.fst heq).symm
            rw [hv]
            obtain ⟨hnd, hwf⟩ := dictMems_wf ms (ihM _ ms rr hpm)
            simp [wfJ, hnd, hwf]
        · split at h
          · exact absurd h (by simp)
          · split_ifs at h
            obtain ⟨⟨m, rr⟩, hpn, heq⟩ := Option.map_eq_some'.mp h
            have hv : v = .num (-(Int.ofNat m)) :=
              (congrArg Prod.fst heq).symm
            rw [hv]
            simp [wfJ]
        · obtain ⟨⟨m, rr⟩, hpn, heq⟩ := Option.map_eq_some'.mp h
          have hv : v = .num (Int.ofNat m) :=
            (congrArg Prod.fst heq).symm
          rw [hv]
          simp [wfJ]
    · intro l xs r h
      simp only [parseItems] at h
      split at h
      · exact absurd h (by simp)
      · next v r' heq1 =>
        split at h
        · obtain ⟨⟨xs', rr⟩, hpi, heq⟩ := Option.map_eq_some'.mp h
          have hv : xs = .cons v xs' := (congrArg Prod.fst heq).symm
          rw [hv]
          simp [wfL, ihV _ v r' heq1, ihI _ xs' rr hpi]
        · have hv : xs = .cons v .nil := (congrArg Prod.fst (Option.some.inj h)).symm
          rw [hv]
          simp [wfL, ihV _ v r' heq1]
        · exact absurd h (by simp)
    · intro l ms r h
      simp only [parseMembers] at h
      split at h
      · next r0 =>
        split at h
        · exact absurd h (by simp)
        · next key r2 heqs =>
          split at h
          · next r3 =>
            split at h
            · exact absurd h (by simp)
            · next v r4 heqv =>
              split at h
              · obtain ⟨⟨ms', rr⟩, hpm, heq⟩ := Option.map_eq_some'.mp h
                have hv : ms = .cons ⟨key⟩ v ms' :=
                  (congrArg Prod.fst heq).symm
                rw [hv]
                simp [wfM, ihV _ v r4 heqv, ihM _ ms' rr hpm]
              · have hv : ms = .cons ⟨key⟩ v .nil :=
                  (congrArg Prod.fst (Option.some.inj h)).symm
                rw [hv]
                simp [wfM, ihV _ v r4 heqv]
              · exact absurd h (by simp)
          · exact absurd h (by simp)
      · exact absurd h (by simp)

theorem loads_wf (s : String) (v : Json) (h : loads s = some v) : wfJ v = true := by
  unfold loads at h
  split at h
  · next v' r heqp =>
    split_ifs at h
    have hv : v' = v := Option.some.inj h
    rw [← hv]
    exact (parse_wf _).1 _ v' r heqp
  · exact absurd h (by simp)

/-- Serialising a well-formed value and parsing it back is the
identity. -/
theorem loads_dumps2 (v : Json) (hw : wfJ v = true) : loads (dumps2 v) = some v := by
  obtain ⟨c, t, hct, hjws, _, _, _, _, _⟩ := encVal_head v 0
  have hskip : skipWs (dumps2 v).data = encVal v 0 := by
    show skipWs (encVal v 0) = encVal v 0
    rw [hct]
    exact skipWs_cons_not_ws c t hjws
  unfold loads
  rw [hskip]
  have hfuel : jsize v ≤ (encVal v 0).length + 1 := by
    have := jsize_le_encVal v 0
    omega
  have hrt := rtV v 0 [] ((encVal v 0).length + 1) hw hfuel rfl
  rw [List.append_nil] at hrt
  rw [hrt]
  rfl

theorem pyStrip_eq_self (l : List Char) (c0 : Char) (t : List Char) (l' : List Char)
    (cl : Char) (hhead : l = c0 :: t) (hlast : l = l' ++ [cl])
    (h0 : isPyWs c0 = false) (hl : isPyWs cl = false) : pyStrip ⟨l⟩ = ⟨l⟩ := by
  unfold pyStrip
  have step1 : l.dropWhile isPyWs = l := by
    rw [hhead]
    simp [List.dropWhile, h0]
  have step2 : l.reverse = cl :: l'.reverse := by
    rw [hlast]
    simp
  have step3 : l.reverse.dropWhile isPyWs = l.reverse := by
    rw [step2]
    simp [List.dropWhile, hl]
  show String.mk (((l.dropWhile isPyWs).reverse.dropWhile isPyWs).reverse) = String.mk l
  rw [step1, step3]
  simp

/-- `dumps2` output has no leading or trailing whitespace, so
`str.strip()` leaves it unchanged. -/
theorem pyStrip_dumps2 (v : Json) : pyStrip (dumps2 v) = dumps2 v := by
  obtain ⟨c, t, hct, _, hpw0, _, _, _, _⟩ := encVal_head v 0
  obtain ⟨l', cl, hlast, hpwl⟩ := encVal_last v 0
  exact pyStrip_eq_self (encVal v 0) c t l' cl hct hlast hpw0 hpwl

/-! ## C3: pretty-printing is an idempotent round trip -/

/-- **C3.**  When the editor text parses to a value `v`, `format_json`
replaces the text with `json.dumps(v, indent=2)`; re-parsing that output
yields exactly `v`; and a second `format_json` leaves the text
unchanged. -/
theorem format_json_roundtrip (st : BrowseState) (v : Json)
    (h : loads (pyStrip st.text) = some v) :
    (format_json st).st.text = dumps2 v ∧
    loads (dumps2 v) = some v ∧
    (format_json (format_json st).st).st.text = (format_json st).st.text := by
  have hw : wfJ v = true := loads_wf _ v h
  have h2 : loads (dumps2 v) = some v := loads_dumps2 v hw
  have htext : (format_json st).st.text = dumps2 v := by simp [format_json, h]
  refine ⟨htext, h2, ?_⟩
  have h3 : loads (pyStrip ((format_json st).st.text)) = some v := by
    rw [htext, pyStrip_dumps2]
    exact h2
  have hgen : ∀ s : BrowseState, loads (pyStrip s.text) = some v →
      (format_json s).st.text = dumps2 v := by
    intro s hs
    simp [format_json, hs]
  rw [hgen _ h3, htext]

/-- A browse state whose editor holds `{"a": [1, true]}` with stray
whitespace. -/
def stJson : BrowseState := ⟨[], [], [], " \x7b\"a\": [1, true]\x7d ", none, ""⟩

def vJson : Json := .obj (.cons "a" (.arr (.cons (.num 1) (.cons (.bool true) .nil))) .nil)

theorem format_json_roundtrip_witness :
    (format_json stJson).st.text = dumps2 vJson ∧
    loads (dumps2 vJson) = some vJson ∧
    (format_json (format_json stJson).st).st.text = (format_json stJson).st.text :=
  format_json_roundtrip stJson vJson (by decide)

/-! ## C10: filtering with the empty search string -/

theorem filterLoop_empty_all_objs (docs : List (String × Json))
    (hobj : ∀ p ∈ docs, p.2.isObj = true) :
    filterLoop "" docs =
      (docs.map (fun p => (p.1, pyStr (jGet p.2 "_rev" (.str "")))), false) := by
  induction docs with
  | nil => rfl
  | cons p rest ih =>
    obtain ⟨id, doc⟩ := p
    have h1 : pyIn "" (lowerS id) = true := pyIn_empty _
    have h2 : doc.isObj = true := hobj (id, doc) (List.mem_cons_self _ _)
    have h3 := ih (fun q hq => hobj q (List.mem_cons_of_mem _ hq))
    simp [filterLoop, h1, h2, h3]

/-- **C10** (corrected).  Filtering with the empty search string is the
identity on the cached document set provided every cached doc is a
dict: the loop then raises nothing and inserts exactly one
`(id, _rev)` row per cached document, in cache order, so the displayed
id set equals the cached id set.  The proviso is needed:
`rev = doc.get('_rev', '')` raises `AttributeError` on a non-dict
cached doc and aborts the loop, a state `load_docs` itself produces for
a `"doc": null` row — see the counterexample further down. -/
theorem filter_docs_empty_search_identity (docs : List (String × Json))
    (hobj : ∀ p ∈ docs, p.2.isObj = true) :
    (filter_docs docs "").2 = false ∧
    (filter_docs docs "").1 =
      docs.map (fun p => (p.1, pyStr (jGet p.2 "_rev" (.str "")))) ∧
    (filter_docs docs "").1.map Prod.fst = docs.map Prod.fst := by
  have h : filter_docs docs "" =
      (docs.map (fun p => (p.1, pyStr (jGet p.2 "_rev" (.str "")))), false) := by
    unfold filter_docs
    rw [show lowerS "" = "" from rfl]
    exact filterLoop_empty_all_objs docs hobj
  refine ⟨by rw [h], by rw [h], ?_⟩
  rw [h, List.map_map]
  rfl

/-- A document cache whose entries are all dicts. -/
def docsAllObj : List (String × Json) :=
  [("a", .obj (.cons "_rev" (.str "1-x") .nil)), ("b", .obj .nil)]

theorem filter_docs_empty_search_identity_witness :
    (∀ p ∈ docsAllObj, p.2.isObj = true) ∧
    ((filter_docs docsAllObj "").2 = false ∧
     (filter_docs docsAllObj "").1 =
       docsAllObj.map (fun p => (p.1, pyStr (jGet p.2 "_rev" (.str "")))) ∧
     (filter_docs docsAllObj "").1.map Prod.fst = docsAllObj.map Prod.fst) :=
  ⟨by decide, filter_docs_empty_search_identity docsAllObj (by decide)⟩

/-- An `_all_docs` body whose second row carries `"doc": null`, as
CouchDB can send with `include_docs=true`; `row.get('doc', {})` then
stores `None` in the cache. -/
def rowsNull : JsonList :=
  .cons (.obj (.cons "id" (.str "a")
    (.cons "value" (.obj (.cons "rev" (.str "1-a") .nil))
    (.cons "doc" (.obj .nil) .nil))))
  (.cons (.obj (.cons "id" (.str "b")
    (.cons "value" (.obj (.cons "rev" (.str "1-b") .nil))
    (.cons "doc" .null .nil)))) .nil)

def dataNull : Json := .obj (.cons "rows" (.arr rowsNull) .nil)

/-- The cache `load_docs` builds from that body. -/
def cacheNull : List (String × Json) :=
  (load_docs stEmpty "db" (.resp 200 (some dataNull))).st.docs

/-- A cache state the program itself produces (via a `"doc": null`
row) on which the unqualified identity fails: the filter loop raises
after the first document, so the displayed ids `["a"]` are a strict
prefix of the cached ids `["a", "b"]`. -/
theorem filter_docs_null_doc_counterexample :
    cacheNull.map Prod.fst = ["a", "b"] ∧
    (filter_docs cacheNull "").2 = true ∧
    (filter_docs cacheNull "").1.map Prod.fst = ["a"] := by
  decide
